import Mathlib

/-!
Verification of the Mannequin repository against its natural-language
specification.

Part I models the real-time media pipeline (Frame Receiver, Frame
Assembler, Output Queue, Health Monitor).  The pipeline implementation
(`correct_rtmp_bridge.py`) is referenced by the repository's README and
launcher scripts but its source is not part of the checked-out tree, so
these definitions are modelled from the specification's own words
(sections 3, 4, 7 and 8 of the spec), as marked on each definition.

Part II embeds code that is present in the tree: the WebSocket command
relay (`websocket-bridge/server.js`) and the frontend WebSocket hook
(`frontend/hooks/useWebSocket.ts`).
-/

namespace Mannequin

/-! ### Data model (spec section 3) -/

/-- Modelled from the spec: `FrameChunk` =
`{frame_id: u32, chunk_index: u16, total_chunks: u16, payload: bytes}`.
Bytes are modelled as lists of naturals; the arrival time is passed
separately to each operation. -/
structure FrameChunk where
  frame_id : Nat
  chunk_index : Nat
  total_chunks : Nat
  payload : List Nat
deriving Repr, DecidableEq

/-- Modelled from the spec: `IncompleteFrame` =
`{frame_id, total_chunks, received_mask/count, buffer, first_seen_time,
last_update_time}`.  The buffer is a list of optional payloads, one slot
per chunk index. -/
structure IncompleteFrame where
  frame_id : Nat
  total_chunks : Nat
  slots : List (Option (List Nat))
  first_seen_time : Nat
  last_update_time : Nat
deriving Repr, DecidableEq

/-- Modelled from the spec: `CompletedFrame` =
`{frame_id, bytes (exact concatenation of chunks 0..total_chunks-1),
completed_time}`. -/
structure CompletedFrame where
  frame_id : Nat
  bytes : List Nat
  completed_time : Nat
deriving Repr, DecidableEq

/-- Modelled from the spec: `PipelineStats` — monotonically increasing
counters. -/
structure PipelineStats where
  packets_received : Nat
  frames_completed : Nat
  frames_dropped_timeout : Nat
  frames_dropped_stale : Nat
  frames_dropped_queue_full : Nat
  encoder_restarts : Nat
deriving Repr, DecidableEq

/-! ### Output Queue (spec sections 4.2, 5, 7, 8)

Modelled from the spec: a bounded FIFO hand-off buffer.  "push failure
due to a full queue drops the oldest queued frame, never blocks";
"overflow drops (policy: oldest)".  The queue is a list with its head
being the oldest frame. -/

/-- Modelled from the spec: push onto the bounded Output Queue; when the
queue is full the single oldest frame (list head) is dropped.  Returns
the new queue and the number of frames dropped by this push. -/
def pushFrame (cap : Nat) (q : List CompletedFrame) (f : CompletedFrame) :
    List CompletedFrame × Nat :=
  if cap ≤ q.length then (q.drop 1 ++ [f], 1) else (q ++ [f], 0)

/-- Modelled from the spec: the consumer (encoder feeder) pops the oldest
frame from the front of the Output Queue. -/
def popFrame (q : List CompletedFrame) : List CompletedFrame :=
  q.drop 1

/-- An operation on the Output Queue: a producer push or a consumer pop. -/
inductive QueueOp where
  | push (f : CompletedFrame)
  | pop
deriving Repr

/-- Run a sequence of queue operations. -/
def runQueue (cap : Nat) (q : List CompletedFrame) : List QueueOp → List CompletedFrame
  | [] => q
  | QueueOp.push f :: ops => runQueue cap (pushFrame cap q f).1 ops
  | QueueOp.pop :: ops => runQueue cap (popFrame q) ops

/-! ### Frame Receiver (spec sections 4.1, 6, 7) -/

/-- Modelled from the spec: the fixed wire header is
`{frame_id: u32, chunk_index: u16, total_chunks: u16}` — 8 bytes. -/
def HEADER_SIZE : Nat := 8

/-- Big-endian byte-list to natural conversion used to read header
fields. -/
def bytesToNat (bs : List Nat) : Nat :=
  bs.foldl (fun acc b => acc * 256 + b % 256) 0

/-- Modelled from the spec: parse a datagram into a `FrameChunk`; a
datagram shorter than the fixed header size does not parse. -/
def parseChunk (d : List Nat) : Option FrameChunk :=
  if d.length < HEADER_SIZE then none
  else some
    { frame_id := bytesToNat (d.take 4)
      chunk_index := bytesToNat ((d.drop 4).take 2)
      total_chunks := bytesToNat ((d.drop 6).take 2)
      payload := d.drop HEADER_SIZE }

/-- Counters owned by the Frame Receiver. -/
structure RecvStats where
  packets_received : Nat
  malformed_packets : Nat
deriving Repr, DecidableEq

/-- Modelled from the spec: the receive loop's only job is
parse-and-forward.  A datagram shorter than the fixed header size is
discarded and counted (`MalformedPacket`: drop, count, continue), never
raises — modelled by this being a total function.  A valid chunk is
forwarded to the Assembler. -/
def onDatagram (st : RecvStats) (d : List Nat) : RecvStats × Option FrameChunk :=
  match parseChunk d with
  | none =>
      ({ st with malformed_packets := st.malformed_packets + 1 }, none)
  | some c =>
      ({ st with packets_received := st.packets_received + 1 }, some c)

/-! ### Health Monitor (spec section 4.4) -/

/-- Modelled from the spec: the sum of all drop counters. -/
def droppedTotal (s : PipelineStats) : Nat :=
  s.frames_dropped_timeout + s.frames_dropped_stale + s.frames_dropped_queue_full

/-- Modelled from the spec: derived frame success rate =
`frames_completed / (frames_completed + sum(all drop counters))`,
exact rational arithmetic on the counter snapshot. -/
def frameSuccessRate (s : PipelineStats) : ℚ :=
  (s.frames_completed : ℚ) / ((s.frames_completed : ℚ) + (droppedTotal s : ℚ))

/-- Modelled from the spec: the periodic health report — a snapshot of
all `PipelineStats` counters plus the derived frame success rate. -/
structure HealthReport where
  snapshot : PipelineStats
  success_rate : ℚ
deriving Repr, DecidableEq

/-- Modelled from the spec: build the periodic report from the windowed
counter snapshot. -/
def mkReport (s : PipelineStats) : HealthReport :=
  { snapshot := s, success_rate := frameSuccessRate s }

/-! ### Frame Assembler (spec sections 4.2, 7, 8)

Modelled from the spec: the Assembler tracks in-flight partial frames in
a bounded table keyed by `frame_id`, reassembles complete frames, evicts
stale/overflowing/timed-out entries, and advances a monotonic watermark
(the highest `frame_id` known to be completed or dropped; chunks at or
behind it are rejected as stale).  Completed frames are emitted to the
Output Queue, modelled separately by `pushFrame`. -/

/-- Modelled from the spec: the Assembler's first-class tunables
(`frame_timeout`, `max_incomplete_frames`). -/
structure AsmConfig where
  frame_timeout : Nat
  max_incomplete_frames : Nat
deriving Repr, DecidableEq

/-- The counters the Assembler owns. -/
structure AsmStats where
  frames_completed : Nat
  frames_dropped_timeout : Nat
  frames_dropped_stale : Nat
deriving Repr, DecidableEq

/-- The Assembler's state: monotonic watermark, table of in-flight
incomplete frames, counters. -/
structure AsmState where
  watermark : Nat
  table : List IncompleteFrame
  stats : AsmStats
deriving Repr, DecidableEq

/-- The number of distinct chunks received for an entry: filled buffer
slots. -/
def receivedCount (e : IncompleteFrame) : Nat :=
  e.slots.countP Option.isSome

/-- Whether an entry's age exceeds `frame_timeout` at time `now`. -/
def expiredB (cfg : AsmConfig) (now : Nat) (e : IncompleteFrame) : Bool :=
  decide (cfg.frame_timeout < now - e.first_seen_time)

/-- Modelled from the spec: timeout sweep — any `IncompleteFrame` whose
age exceeds `frame_timeout` is evicted and counted, and the watermark is
advanced past it so that late chunks for it are rejected thereafter. -/
def sweepState (cfg : AsmConfig) (st : AsmState) (now : Nat) : AsmState :=
  let timedOut := st.table.filter (expiredB cfg now)
  { watermark := timedOut.foldl (fun w e => max w e.frame_id) st.watermark
    table := st.table.filter (fun e => ! expiredB cfg now e)
    stats := { st.stats with
      frames_dropped_timeout := st.stats.frames_dropped_timeout + timedOut.length } }

/-- The older of two entries by `first_seen_time` (the first on ties). -/
def olderEntry (a b : IncompleteFrame) : IncompleteFrame :=
  if b.first_seen_time < a.first_seen_time then b else a

/-- The oldest entry of the table by `first_seen_time`, if any. -/
def oldestEntry : List IncompleteFrame → Option IncompleteFrame
  | [] => none
  | e :: es => some (es.foldl olderEntry e)

/-- Remove the entry with the given `frame_id` from the table. -/
def removeEntry (t : List IncompleteFrame) (fid : Nat) : List IncompleteFrame :=
  t.filter (fun e => ! (e.frame_id == fid))

/-- Modelled from the spec: capacity enforcement — evict the single
oldest entry by `first_seen_time` (LRU-by-age), counted as a
timeout-class drop; the watermark records the dropped id so later chunks
for it are rejected. -/
def evictOldest (st : AsmState) : AsmState :=
  match oldestEntry st.table with
  | none => st
  | some old =>
      { watermark := max st.watermark old.frame_id
        table := removeEntry st.table old.frame_id
        stats := { st.stats with
          frames_dropped_timeout := st.stats.frames_dropped_timeout + 1 } }

/-- Modelled from the spec: write the chunk payload at `chunk_index` and
update `last_update_time`. -/
def writeChunk (e : IncompleteFrame) (c : FrameChunk) (now : Nat) : IncompleteFrame :=
  { e with
    slots := e.slots.set c.chunk_index (some c.payload)
    last_update_time := now }

/-- Modelled from the spec: promote a fully received entry to a
`CompletedFrame` whose bytes are the ordered concatenation of buffer
slots `0..total_chunks-1`. -/
def promote (e : IncompleteFrame) (now : Nat) : CompletedFrame :=
  { frame_id := e.frame_id
    bytes := (e.slots.map (fun s => s.getD [])).flatten
    completed_time := now }

/-- Locate the table entry for a `frame_id`. -/
def findEntry (t : List IncompleteFrame) (fid : Nat) : Option IncompleteFrame :=
  t.find? (fun e => e.frame_id == fid)

/-- Replace the entry with the given `frame_id` in place. -/
def replaceEntry (t : List IncompleteFrame) (fid : Nat) (e' : IncompleteFrame) :
    List IncompleteFrame :=
  t.map (fun e => if e.frame_id == fid then e' else e)

/-- Modelled from the spec: a new `IncompleteFrame` created on first
chunk, with an empty buffer of `total_chunks` slots. -/
def freshEntry (c : FrameChunk) (now : Nat) : IncompleteFrame :=
  { frame_id := c.frame_id
    total_chunks := c.total_chunks
    slots := List.replicate c.total_chunks none
    first_seen_time := now
    last_update_time := now }

/-- Count a stale/duplicate rejection. -/
def bumpStale (st : AsmState) : AsmState :=
  { st with stats := { st.stats with
      frames_dropped_stale := st.stats.frames_dropped_stale + 1 } }

/-- Modelled from the spec: before admitting a new `IncompleteFrame`
that would exceed `max_incomplete_frames`, evict the single oldest
entry. -/
def admitState (cfg : AsmConfig) (st : AsmState) : AsmState :=
  if cfg.max_incomplete_frames ≤ st.table.length then evictOldest st else st

/-- Modelled from the spec, on chunk arrival: if `frame_id` is at or
behind the watermark, discard as stale/duplicate (counted).  Otherwise
locate or create the `IncompleteFrame` (evicting the oldest entry first
when the table is at `max_incomplete_frames`), write the chunk payload
at `chunk_index`, and when the number of distinct chunks received equals
`total_chunks`, promote to `CompletedFrame`, remove the entry and
advance the watermark to `max(watermark, frame_id)`. -/
def onChunk (cfg : AsmConfig) (st : AsmState) (c : FrameChunk) (now : Nat) :
    AsmState × Option CompletedFrame :=
  if c.frame_id ≤ st.watermark then (bumpStale st, none)
  else
    match findEntry st.table c.frame_id with
    | some e =>
        let e' := writeChunk e c now
        if receivedCount e' = e'.total_chunks then
          ({ watermark := max st.watermark c.frame_id
             table := removeEntry st.table c.frame_id
             stats := { st.stats with
               frames_completed := st.stats.frames_completed + 1 } },
           some (promote e' now))
        else
          ({ st with table := replaceEntry st.table c.frame_id e' }, none)
    | none =>
        let st1 := admitState cfg st
        let e' := writeChunk (freshEntry c now) c now
        if receivedCount e' = e'.total_chunks then
          ({ watermark := max st1.watermark c.frame_id
             table := st1.table
             stats := { st1.stats with
               frames_completed := st1.stats.frames_completed + 1 } },
           some (promote e' now))
        else
          ({ st1 with table := st1.table ++ [e'] }, none)

/-- Modelled from the spec: the timeout sweep is "triggered alongside
chunk processing"; a chunk arrival first sweeps expired entries at the
chunk's arrival time and then processes the chunk. -/
def onChunkAt (cfg : AsmConfig) (st : AsmState) (c : FrameChunk) (now : Nat) :
    AsmState × Option CompletedFrame :=
  onChunk cfg (sweepState cfg st now) c now

/-- An event observed by the Assembler: a chunk arrival or a standalone
timeout sweep, each at a given time. -/
inductive AsmEvent where
  | chunk (c : FrameChunk) (now : Nat)
  | sweep (now : Nat)
deriving Repr

/-- One Assembler step; returns the next state and the completed frames
emitted by the step (at most one). -/
def stepEv (cfg : AsmConfig) (st : AsmState) : AsmEvent → AsmState × List CompletedFrame
  | AsmEvent.chunk c now =>
      let r := onChunkAt cfg st c now
      (r.1, r.2.toList)
  | AsmEvent.sweep now => (sweepState cfg st now, [])

/-- Run a sequence of Assembler events, collecting all emitted
completed frames in order. -/
def runEvents (cfg : AsmConfig) (st : AsmState) :
    List AsmEvent → AsmState × List CompletedFrame
  | [] => (st, [])
  | ev :: evs =>
      let r1 := stepEv cfg st ev
      let r2 := runEvents cfg r1.1 evs
      (r2.1, r1.2 ++ r2.2)

/-- An initial Assembler state: empty table, given watermark and
counters. -/
def mkInit (w : Nat) (s : AsmStats) : AsmState :=
  { watermark := w, table := [], stats := s }

/-- The full chunk set of one frame: chunk `i` carries `payloads[i]`,
with `total_chunks = payloads.length`. -/
def mkChunks (fid : Nat) (payloads : List (List Nat)) : List FrameChunk :=
  payloads.enum.map (fun ip =>
    { frame_id := fid
      chunk_index := ip.1
      total_chunks := payloads.length
      payload := ip.2 })

/-- The frame ids present in a table. -/
def tableIds (t : List IncompleteFrame) : List Nat :=
  t.map IncompleteFrame.frame_id

/-- The write a chunk performs on its frame's buffer: position and
payload. -/
def chunkWrite (c : FrameChunk) : Nat × List Nat :=
  (c.chunk_index, c.payload)

/-- A buffer after a sequence of chunk writes. -/
def fillFold (init : List (Option (List Nat))) (ws : List (Nat × List Nat)) :
    List (Option (List Nat)) :=
  ws.foldl (fun sl ip => sl.set ip.1 (some ip.2)) init

/-- The emission-uniqueness invariant: `em` lists the ids of all frames
emitted so far.  Emitted ids are distinct and at or below the watermark,
table ids are distinct, and no tracked frame was already emitted. -/
def AsmInv (em : List Nat) (st : AsmState) : Prop :=
  em.Nodup ∧ (∀ k ∈ em, k ≤ st.watermark) ∧ (tableIds st.table).Nodup ∧
    ∀ e ∈ st.table, e.frame_id ∉ em

/-! ## Part II: code embedded from the repository tree

### The command validator of `websocket-bridge/server.js`

The validator tests a command string against a fixed list of anchored
JavaScript regular expressions (`VALID_COMMAND_PATTERNS`, lines 88-129).
None of the patterns uses lookaround, captures or backreferences, so
each denotes a plain regular language; they are embedded as regular
expressions matched by Brzozowski derivatives.  An unescaped `.` in the
source pattern matches any character except the JavaScript line
terminators (no pattern has the `s` flag) and is embedded as `jsDot`. -/

/-- The decoded token record. -/
structure Token where
  timestamp : Int
  nonce : String
  signature : String
deriving Repr, DecidableEq

/-- Embedded from `server.js`: the exact string
`JSON.stringify({timestamp, nonce})` (insertion order `timestamp` then
`nonce`) that gets signed; the nonce is a hex string so it needs no JSON
escaping. -/
def payloadString (timestamp : Int) (nonce : String) : String :=
  "\x7b\"timestamp\":" ++ toString timestamp ++ ",\"nonce\":\"" ++ nonce ++
    "\"\x7d"

/-- Embedded from `server.js` `generateSecureToken` (lines 177-188):
sign the `{timestamp, nonce}` payload and attach the signature. -/
def generateSecureToken (hmac : String → String) (now : Int)
    (nonce : String) : Token :=
  { timestamp := now, nonce := nonce,
    signature := hmac (payloadString now nonce) }

/-- Embedded from `server.js` `verifyToken` (lines 190-211): reject a
token older than one hour (3600000 ms), else recompute the HMAC of the
rebuilt `{timestamp, nonce}` payload and compare signatures. -/
def verifyToken (hmac : String → String) (now : Int) (t : Token) : Bool :=
  if now - t.timestamp > 3600000 then false
  else t.signature == hmac (payloadString t.timestamp t.nonce)

/-! ### The frontend hook `sendCommand`
(`frontend/hooks/useWebSocket.ts` lines 160-183) -/

/-- JSON string escaping as `JSON.stringify` performs on the command
string (quotes, backslashes and the common control characters; command
strings contain no other control characters). -/
def jsonEscape (s : String) : String :=
  s.toList.foldl (fun acc ch =>
    acc ++ (if ch == '"' then "\\\""
      else if ch == '\\' then "\\\\"
      else if ch == '\n' then "\\n"
      else if ch == '\r' then "\\r"
      else if ch == '\t' then "\\t"
      else String.singleton ch)) ""

/-- Embedded from `useWebSocket.ts`: the exact message
`JSON.stringify({type: 'command', command: command})` written to the
socket. -/
def mkCommandMessage (command : String) : String :=
  "\x7b\"type\":\"command\",\"command\":\"" ++ jsonEscape command ++ "\"\x7d"

/-- Embedded from `useWebSocket.ts` `sendCommand` (lines 160-183): when
the socket reference is null (`wsPresent = false`), the connection is
not open (`isConnected = false`) or the session is not authenticated,
resolve `false` and write nothing; otherwise make exactly one send
attempt with the JSON command message and resolve `true`, or `false` if
the send throws.  The second component lists the send attempts made. -/
def sendCommand (wsPresent isConnected isAuthenticated sendThrows : Bool)
    (command : String) : Bool × List String :=
  if !wsPresent || !isConnected || !isAuthenticated then (false, [])
  else if sendThrows then (false, [mkCommandMessage command])
  else (true, [mkCommandMessage command])

end Mannequin

namespace Mannequin

/-! ### Helper lemmas about the Assembler's auxiliary folds -/

theorem le_foldl_maxId (l : List IncompleteFrame) (w : Nat) :
    w ≤ l.foldl (fun a e => max a e.frame_id) w := by
  induction l generalizing w with
  | nil => exact le_refl w
  | cons e es ih => exact le_trans (le_max_left w e.frame_id) (ih (max w e.frame_id))

theorem mem_le_foldl_maxId (l : List IncompleteFrame) (w : Nat) (e : IncompleteFrame)
    (he : e ∈ l) : e.frame_id ≤ l.foldl (fun a x => max a x.frame_id) w := by
  induction l generalizing w with
  | nil => cases he
  | cons x xs ih =>
    cases he with
    | head => exact le_trans (le_max_right w e.frame_id) (le_foldl_maxId xs _)
    | tail _ h => exact ih _ h

theorem foldl_olderEntry_mem (es : List IncompleteFrame) (e : IncompleteFrame) :
    es.foldl olderEntry e ∈ e :: es := by
  induction es generalizing e with
  | nil => simp [List.foldl]
  | cons a as ih =>
    have h := ih (olderEntry e a)
    have hor : olderEntry e a = e ∨ olderEntry e a = a := by
      unfold olderEntry; split <;> simp
    simp only [List.foldl_cons]
    rcases List.mem_cons.mp h with h1 | h2
    · rcases hor with h3 | h3 <;> rw [h1, h3] <;> simp
    · simp only [List.mem_cons]
      right; right; exact h2

theorem foldl_olderEntry_min (es : List IncompleteFrame) (e : IncompleteFrame) :
    (es.foldl olderEntry e).first_seen_time ≤ e.first_seen_time ∧
      ∀ x ∈ es, (es.foldl olderEntry e).first_seen_time ≤ x.first_seen_time := by
  induction es generalizing e with
  | nil => exact ⟨le_refl _, fun x hx => absurd hx (List.not_mem_nil x)⟩
  | cons a as ih =>
    have h1 : (olderEntry e a).first_seen_time ≤ e.first_seen_time := by
      unfold olderEntry; split
      · omega
      · exact le_refl _
    have h2 : (olderEntry e a).first_seen_time ≤ a.first_seen_time := by
      unfold olderEntry; split
      · exact le_refl _
      · omega
    obtain ⟨ihe, ihall⟩ := ih (olderEntry e a)
    simp only [List.foldl_cons]
    refine ⟨le_trans ihe h1, ?_⟩
    intro x hx
    rcases List.mem_cons.mp hx with h | h
    · subst h
      exact le_trans ihe h2
    · exact ihall x h

theorem oldestEntry_mem {t : List IncompleteFrame} {old : IncompleteFrame}
    (h : oldestEntry t = some old) : old ∈ t := by
  cases t with
  | nil => cases h
  | cons e es =>
    have h' : es.foldl olderEntry e = old := by
      have : oldestEntry (e :: es) = some (es.foldl olderEntry e) := rfl
      rw [this] at h
      exact Option.some_inj.mp h
    have := foldl_olderEntry_mem es e
    rwa [h'] at this

theorem oldestEntry_min {t : List IncompleteFrame} {old : IncompleteFrame}
    (h : oldestEntry t = some old) :
    ∀ e ∈ t, old.first_seen_time ≤ e.first_seen_time := by
  cases t with
  | nil => cases h
  | cons x xs =>
    have h' : xs.foldl olderEntry x = old := by
      have : oldestEntry (x :: xs) = some (xs.foldl olderEntry x) := rfl
      rw [this] at h
      exact Option.some_inj.mp h
    have hmin := foldl_olderEntry_min xs x
    rw [h'] at hmin
    intro e he
    rcases List.mem_cons.mp he with h1 | h1
    · subst h1
      exact hmin.1
    · exact hmin.2 e h1

/-! ### Watermark monotonicity and basic step facts -/

theorem sweepState_wm_mono (cfg : AsmConfig) (st : AsmState) (now : Nat) :
    st.watermark ≤ (sweepState cfg st now).watermark :=
  le_foldl_maxId _ _

theorem evictOldest_wm_mono (st : AsmState) :
    st.watermark ≤ (evictOldest st).watermark := by
  unfold evictOldest
  cases h : oldestEntry st.table with
  | none => exact le_refl _
  | some old => exact le_max_left _ _

/-- A chunk at or behind the watermark is rejected as stale: the state
is unchanged apart from the stale counter, nothing is emitted and no
entry is created. -/
theorem onChunk_stale (cfg : AsmConfig) (st : AsmState) (c : FrameChunk) (now : Nat)
    (h : c.frame_id ≤ st.watermark) :
    onChunk cfg st c now = (bumpStale st, none) := by
  unfold onChunk
  rw [if_pos h]

theorem onChunkAt_stale (cfg : AsmConfig) (st : AsmState) (c : FrameChunk) (now : Nat)
    (h : c.frame_id ≤ st.watermark) :
    onChunkAt cfg st c now = (bumpStale (sweepState cfg st now), none) :=
  onChunk_stale cfg _ c now (le_trans h (sweepState_wm_mono cfg st now))

/-! Branch-characterization equations for `onChunk`, used throughout. -/

theorem onChunk_found_complete (cfg : AsmConfig) (st : AsmState) (c : FrameChunk)
    (now : Nat) (e : IncompleteFrame)
    (hst : ¬ c.frame_id ≤ st.watermark)
    (hf : findEntry st.table c.frame_id = some e)
    (hc : receivedCount (writeChunk e c now) = (writeChunk e c now).total_chunks) :
    onChunk cfg st c now =
      ({ watermark := max st.watermark c.frame_id
         table := removeEntry st.table c.frame_id
         stats := { st.stats with
           frames_completed := st.stats.frames_completed + 1 } },
       some (promote (writeChunk e c now) now)) := by
  unfold onChunk
  rw [if_neg hst, hf]
  simp only [hc, if_pos]

theorem onChunk_found_incomplete (cfg : AsmConfig) (st : AsmState) (c : FrameChunk)
    (now : Nat) (e : IncompleteFrame)
    (hst : ¬ c.frame_id ≤ st.watermark)
    (hf : findEntry st.table c.frame_id = some e)
    (hc : ¬ receivedCount (writeChunk e c now) = (writeChunk e c now).total_chunks) :
    onChunk cfg st c now =
      ({ st with table := replaceEntry st.table c.frame_id (writeChunk e c now) },
       none) := by
  unfold onChunk
  rw [if_neg hst, hf]
  simp only [hc, if_neg, if_false]

theorem onChunk_fresh_complete (cfg : AsmConfig) (st : AsmState) (c : FrameChunk)
    (now : Nat)
    (hst : ¬ c.frame_id ≤ st.watermark)
    (hf : findEntry st.table c.frame_id = none)
    (hc : receivedCount (writeChunk (freshEntry c now) c now) =
      (writeChunk (freshEntry c now) c now).total_chunks) :
    onChunk cfg st c now =
      ({ watermark := max (admitState cfg st).watermark c.frame_id
         table := (admitState cfg st).table
         stats := { (admitState cfg st).stats with
           frames_completed := (admitState cfg st).stats.frames_completed + 1 } },
       some (promote (writeChunk (freshEntry c now) c now) now)) := by
  unfold onChunk
  rw [if_neg hst, hf]
  simp only [hc, if_pos]

theorem onChunk_fresh_incomplete (cfg : AsmConfig) (st : AsmState) (c : FrameChunk)
    (now : Nat)
    (hst : ¬ c.frame_id ≤ st.watermark)
    (hf : findEntry st.table c.frame_id = none)
    (hc : ¬ receivedCount (writeChunk (freshEntry c now) c now) =
      (writeChunk (freshEntry c now) c now).total_chunks) :
    onChunk cfg st c now =
      ({ admitState cfg st with
         table := (admitState cfg st).table ++ [writeChunk (freshEntry c now) c now] },
       none) := by
  unfold onChunk
  rw [if_neg hst, hf]
  simp only [hc, if_neg, if_false]

/-! Facts about `findEntry`, `removeEntry`, `replaceEntry`, `sweepState`
and `evictOldest`. -/

theorem findEntry_some {t : List IncompleteFrame} {fid : Nat} {e : IncompleteFrame}
    (h : findEntry t fid = some e) : e ∈ t ∧ e.frame_id = fid := by
  refine ⟨List.mem_of_find?_eq_some h, ?_⟩
  have := List.find?_some h
  exact eq_of_beq this

theorem findEntry_none {t : List IncompleteFrame} {fid : Nat}
    (h : findEntry t fid = none) : ∀ e ∈ t, e.frame_id ≠ fid := by
  intro e he
  have := List.find?_eq_none.mp h e he
  intro hx
  exact this (by simp [hx])

theorem mem_removeEntry {t : List IncompleteFrame} {fid : Nat} {e : IncompleteFrame}
    (he : e ∈ removeEntry t fid) : e ∈ t ∧ e.frame_id ≠ fid := by
  have h := List.mem_filter.mp he
  refine ⟨h.1, ?_⟩
  have := h.2
  simp only [Bool.not_eq_true', beq_eq_false_iff_ne, ne_eq] at this
  exact this

theorem not_mem_removeEntry_ids (t : List IncompleteFrame) (fid : Nat) :
    fid ∉ tableIds (removeEntry t fid) := by
  intro h
  obtain ⟨e, he, hfid⟩ := List.mem_map.mp h
  exact (mem_removeEntry he).2 hfid

theorem mem_replaceEntry {t : List IncompleteFrame} {fid : Nat}
    {e' x : IncompleteFrame} (hx : x ∈ replaceEntry t fid e') : x ∈ t ∨ x = e' := by
  obtain ⟨y, hy, hxy⟩ := List.mem_map.mp hx
  by_cases h : (y.frame_id == fid) = true
  · right
    rw [← hxy]
    simp [h]
  · left
    rw [← hxy]
    simp only [h, Bool.false_eq_true, if_false]
    simpa [h] using hy

theorem tableIds_replaceEntry (t : List IncompleteFrame) (fid : Nat)
    (e' : IncompleteFrame) (h : e'.frame_id = fid) :
    tableIds (replaceEntry t fid e') = tableIds t := by
  unfold tableIds replaceEntry
  rw [List.map_map]
  apply List.map_congr_left
  intro e _
  simp only [Function.comp_apply]
  by_cases hc : e.frame_id = fid
  · simp [hc, h]
  · simp [hc]

theorem tableIds_filter_nodup {t : List IncompleteFrame} (p : IncompleteFrame → Bool)
    (h : (tableIds t).Nodup) : (tableIds (t.filter p)).Nodup := by
  have hs : List.Sublist ((t.filter p).map IncompleteFrame.frame_id)
      (t.map IncompleteFrame.frame_id) :=
    (List.filter_sublist t).map _
  exact h.sublist hs

theorem sweepState_young (cfg : AsmConfig) (st : AsmState) (now : Nat) :
    ∀ e ∈ (sweepState cfg st now).table,
      now - e.first_seen_time ≤ cfg.frame_timeout := by
  intro e he
  have h := (List.mem_filter.mp he).2
  simp only [expiredB, Bool.not_eq_true', decide_eq_false_iff_not, not_lt] at h
  exact h

theorem sweepState_table_sub (cfg : AsmConfig) (st : AsmState) (now : Nat) :
    ∀ e ∈ (sweepState cfg st now).table, e ∈ st.table := by
  intro e he
  exact (List.mem_filter.mp he).1

theorem sweepState_removed_le_wm (cfg : AsmConfig) (st : AsmState) (now : Nat)
    (K : Nat) (hK : K ∈ tableIds st.table)
    (hK' : K ∉ tableIds (sweepState cfg st now).table) :
    K ≤ (sweepState cfg st now).watermark := by
  obtain ⟨e, he, hfid⟩ := List.mem_map.mp hK
  by_cases hex : expiredB cfg now e = true
  · have hmem : e ∈ st.table.filter (expiredB cfg now) :=
      List.mem_filter.mpr ⟨he, hex⟩
    calc K = e.frame_id := hfid.symm
      _ ≤ _ := mem_le_foldl_maxId _ st.watermark e hmem
  · exfalso
    apply hK'
    apply List.mem_map.mpr
    refine ⟨e, ?_, hfid⟩
    exact List.mem_filter.mpr ⟨he, by simp [hex]⟩

theorem evictOldest_removed_le_wm (st : AsmState) (K : Nat)
    (hK : K ∈ tableIds st.table)
    (hK' : K ∉ tableIds (evictOldest st).table) :
    K ≤ (evictOldest st).watermark := by
  unfold evictOldest at hK' ⊢
  cases h : oldestEntry st.table with
  | none =>
      rw [h] at hK'
      exact absurd hK hK'
  | some old =>
      rw [h] at hK'
      obtain ⟨e, he, hfid⟩ := List.mem_map.mp hK
      by_cases heq : e.frame_id = old.frame_id
      · calc K = old.frame_id := by rw [← hfid, heq]
          _ ≤ max st.watermark old.frame_id := le_max_right _ _
      · exfalso
        apply hK'
        apply List.mem_map.mpr
        refine ⟨e, ?_, hfid⟩
        exact List.mem_filter.mpr ⟨he, by simp [heq]⟩

theorem evictOldest_table_sub (st : AsmState) :
    ∀ e ∈ (evictOldest st).table, e ∈ st.table := by
  unfold evictOldest
  cases h : oldestEntry st.table with
  | none => intro e he; exact he
  | some old => intro e he; exact (mem_removeEntry he).1

theorem admitState_table_sub (cfg : AsmConfig) (st : AsmState) :
    ∀ e ∈ (admitState cfg st).table, e ∈ st.table := by
  unfold admitState
  split
  · exact evictOldest_table_sub st
  · intro e he; exact he

theorem admitState_removed_le_wm (cfg : AsmConfig) (st : AsmState) (K : Nat)
    (hK : K ∈ tableIds st.table)
    (hK' : K ∉ tableIds (admitState cfg st).table) :
    K ≤ (admitState cfg st).watermark := by
  unfold admitState at hK' ⊢
  split at hK'
  · rename_i h
    rw [if_pos h]
    exact evictOldest_removed_le_wm st K hK hK'
  · rename_i h
    exact absurd hK hK'

theorem admitState_wm_mono (cfg : AsmConfig) (st : AsmState) :
    st.watermark ≤ (admitState cfg st).watermark := by
  unfold admitState
  split
  · exact evictOldest_wm_mono st
  · exact le_refl _

theorem onChunk_wm_mono (cfg : AsmConfig) (st : AsmState) (c : FrameChunk) (now : Nat) :
    st.watermark ≤ (onChunk cfg st c now).1.watermark := by
  by_cases hst : c.frame_id ≤ st.watermark
  · rw [onChunk_stale cfg st c now hst]
    exact le_refl _
  · cases hf : findEntry st.table c.frame_id with
    | some e =>
        by_cases hc : receivedCount (writeChunk e c now) = (writeChunk e c now).total_chunks
        · rw [onChunk_found_complete cfg st c now e hst hf hc]
          exact le_max_left _ _
        · rw [onChunk_found_incomplete cfg st c now e hst hf hc]
    | none =>
        by_cases hc : receivedCount (writeChunk (freshEntry c now) c now) =
          (writeChunk (freshEntry c now) c now).total_chunks
        · rw [onChunk_fresh_complete cfg st c now hst hf hc]
          exact le_trans (admitState_wm_mono cfg st) (le_max_left _ _)
        · rw [onChunk_fresh_incomplete cfg st c now hst hf hc]
          exact admitState_wm_mono cfg st

theorem onChunkAt_wm_mono (cfg : AsmConfig) (st : AsmState) (c : FrameChunk) (now : Nat) :
    st.watermark ≤ (onChunkAt cfg st c now).1.watermark :=
  le_trans (sweepState_wm_mono cfg st now) (onChunk_wm_mono cfg _ c now)

theorem stepEv_wm_mono (cfg : AsmConfig) (st : AsmState) (ev : AsmEvent) :
    st.watermark ≤ (stepEv cfg st ev).1.watermark := by
  cases ev with
  | chunk c now => exact onChunkAt_wm_mono cfg st c now
  | sweep now => exact sweepState_wm_mono cfg st now

theorem runEvents_wm_mono (cfg : AsmConfig) (evs : List AsmEvent) (st : AsmState) :
    st.watermark ≤ (runEvents cfg st evs).1.watermark := by
  induction evs generalizing st with
  | nil => exact le_refl _
  | cons ev evs ih =>
    exact le_trans (stepEv_wm_mono cfg st ev) (ih (stepEv cfg st ev).1)

/-! ### The emission-uniqueness invariant

`AsmInv em st` is preserved by every Assembler step; together its
components give "at most one CompletedFrame per frame_id". -/

theorem sweepState_inv (cfg : AsmConfig) (st : AsmState) (now : Nat)
    (em : List Nat) (h : AsmInv em st) : AsmInv em (sweepState cfg st now) := by
  obtain ⟨h1, h2, h3, h4⟩ := h
  refine ⟨h1, fun k hk => le_trans (h2 k hk) (sweepState_wm_mono cfg st now), ?_, ?_⟩
  · exact tableIds_filter_nodup _ h3
  · intro e he
    exact h4 e (sweepState_table_sub cfg st now e he)

theorem evictOldest_inv (st : AsmState) (em : List Nat) (h : AsmInv em st) :
    AsmInv em (evictOldest st) := by
  obtain ⟨h1, h2, h3, h4⟩ := h
  refine ⟨h1, fun k hk => le_trans (h2 k hk) (evictOldest_wm_mono st), ?_, ?_⟩
  · unfold evictOldest
    split
    · exact h3
    · exact tableIds_filter_nodup _ h3
  · intro e he
    exact h4 e (evictOldest_table_sub st e he)

theorem admitState_inv (cfg : AsmConfig) (st : AsmState) (em : List Nat)
    (h : AsmInv em st) : AsmInv em (admitState cfg st) := by
  unfold admitState
  split
  · exact evictOldest_inv st em h
  · exact h

theorem nodup_append_fresh {em : List Nat} {k : Nat} (h1 : em.Nodup)
    (hk : k ∉ em) : (em ++ [k]).Nodup := by
  refine List.Nodup.append h1 (List.nodup_singleton k) ?_
  intro a ha hb
  rw [List.mem_singleton.mp hb] at ha
  exact hk ha

theorem onChunk_inv (cfg : AsmConfig) (st : AsmState) (c : FrameChunk) (now : Nat)
    (em : List Nat) (h : AsmInv em st) :
    AsmInv (em ++ ((onChunk cfg st c now).2.toList.map CompletedFrame.frame_id))
      (onChunk cfg st c now).1 := by
  obtain ⟨h1, h2, h3, h4⟩ := h
  by_cases hst : c.frame_id ≤ st.watermark
  · rw [onChunk_stale cfg st c now hst]
    simpa using ⟨h1, h2, h3, h4⟩
  · cases hf : findEntry st.table c.frame_id with
    | some e =>
        obtain ⟨het, hefid⟩ := findEntry_some hf
        have hpfid : (promote (writeChunk e c now) now).frame_id = c.frame_id := hefid
        by_cases hc : receivedCount (writeChunk e c now) = (writeChunk e c now).total_chunks
        · rw [onChunk_found_complete cfg st c now e hst hf hc]
          have hfnotem : c.frame_id ∉ em := by
            have := h4 e het
            rwa [hefid] at this
          simp only [Option.toList_some, List.map_cons, List.map_nil, hpfid]
          refine ⟨nodup_append_fresh h1 hfnotem, ?_, ?_, ?_⟩
          · intro k hk
            rcases List.mem_append.mp hk with hk | hk
            · exact le_trans (h2 k hk) (le_max_left _ _)
            · rw [List.mem_singleton.mp hk]
              exact le_max_right _ _
          · exact tableIds_filter_nodup _ h3
          · intro x hx hmem
            obtain ⟨hxt, hxne⟩ := mem_removeEntry hx
            rcases List.mem_append.mp hmem with hm | hm
            · exact h4 x hxt hm
            · exact hxne (List.mem_singleton.mp hm)
        · rw [onChunk_found_incomplete cfg st c now e hst hf hc]
          have hwfid : (writeChunk e c now).frame_id = c.frame_id := hefid
          simp only [Option.toList_none, List.map_nil, List.append_nil]
          refine ⟨h1, h2, ?_, ?_⟩
          · rw [tableIds_replaceEntry _ _ _ hwfid]
            exact h3
          · intro x hx
            rcases mem_replaceEntry hx with hm | hm
            · exact h4 x hm
            · rw [hm, hwfid, ← hefid]
              exact h4 e het
    | none =>
        have hids := admitState_inv cfg st em ⟨h1, h2, h3, h4⟩
        obtain ⟨g1, g2, g3, g4⟩ := hids
        have hcnot : c.frame_id ∉ em := by
          intro hmem
          exact hst (h2 _ hmem)
        have hwfid : (writeChunk (freshEntry c now) c now).frame_id = c.frame_id := rfl
        have hfresh_ids : c.frame_id ∉ tableIds (admitState cfg st).table := by
          intro hmem
          obtain ⟨x, hx, hxf⟩ := List.mem_map.mp hmem
          exact findEntry_none hf x (admitState_table_sub cfg st x hx) hxf
        by_cases hc : receivedCount (writeChunk (freshEntry c now) c now) =
          (writeChunk (freshEntry c now) c now).total_chunks
        · rw [onChunk_fresh_complete cfg st c now hst hf hc]
          simp only [Option.toList_some, List.map_cons, List.map_nil]
          refine ⟨nodup_append_fresh h1 hcnot, ?_, g3, ?_⟩
          · intro k hk
            rcases List.mem_append.mp hk with hk | hk
            · exact le_trans (g2 k hk) (le_max_left _ _)
            · rw [List.mem_singleton.mp hk]
              exact le_max_right _ _
          · intro x hx hmem
            rcases List.mem_append.mp hmem with hm | hm
            · exact g4 x hx hm
            · have hxf : x.frame_id = c.frame_id := List.mem_singleton.mp hm
              exact hfresh_ids (hxf ▸ List.mem_map.mpr ⟨x, hx, rfl⟩)
        · rw [onChunk_fresh_incomplete cfg st c now hst hf hc]
          simp only [Option.toList_none, List.map_nil, List.append_nil]
          refine ⟨h1, ?_, ?_, ?_⟩
          · intro k hk
            exact le_trans (h2 k hk) (admitState_wm_mono cfg st)
          · unfold tableIds
            rw [List.map_append]
            refine List.Nodup.append g3 (List.nodup_singleton _) ?_
            intro a ha hb
            rw [List.mem_singleton.mp hb, hwfid] at ha
            exact hfresh_ids ha
          · intro x hx
            rcases List.mem_append.mp hx with hm | hm
            · exact g4 x hm
            · rw [List.mem_singleton.mp hm, hwfid]
              exact hcnot

theorem stepEv_inv (cfg : AsmConfig) (st : AsmState) (ev : AsmEvent)
    (em : List Nat) (h : AsmInv em st) :
    AsmInv (em ++ ((stepEv cfg st ev).2.map CompletedFrame.frame_id))
      (stepEv cfg st ev).1 := by
  cases ev with
  | chunk c now =>
      exact onChunk_inv cfg (sweepState cfg st now) c now em
        (sweepState_inv cfg st now em h)
  | sweep now =>
      simpa [stepEv] using sweepState_inv cfg st now em h

theorem runEvents_inv (cfg : AsmConfig) (evs : List AsmEvent) (st : AsmState)
    (em : List Nat) (h : AsmInv em st) :
    AsmInv (em ++ ((runEvents cfg st evs).2.map CompletedFrame.frame_id))
      (runEvents cfg st evs).1 := by
  induction evs generalizing st em with
  | nil => simpa [runEvents] using h
  | cons ev evs ih =>
      have h1 := stepEv_inv cfg st ev em h
      have h2 := ih (stepEv cfg st ev).1 _ h1
      simpa [runEvents, List.map_append, List.append_assoc] using h2

/-! ### Completed or dropped ids are recorded by the watermark -/

theorem onChunk_out_le_wm (cfg : AsmConfig) (st : AsmState) (c : FrameChunk)
    (now : Nat) (f : CompletedFrame) (hf : (onChunk cfg st c now).2 = some f) :
    f.frame_id ≤ (onChunk cfg st c now).1.watermark := by
  by_cases hst : c.frame_id ≤ st.watermark
  · rw [onChunk_stale cfg st c now hst] at hf
    cases hf
  · cases hfind : findEntry st.table c.frame_id with
    | some e =>
        obtain ⟨het, hefid⟩ := findEntry_some hfind
        by_cases hc : receivedCount (writeChunk e c now) = (writeChunk e c now).total_chunks
        · rw [onChunk_found_complete cfg st c now e hst hfind hc] at hf ⊢
          have : f.frame_id = c.frame_id := by
            have hp : (promote (writeChunk e c now) now).frame_id = c.frame_id := hefid
            rw [← Option.some_inj.mp hf, hp]
          rw [this]
          exact le_max_right _ _
        · rw [onChunk_found_incomplete cfg st c now e hst hfind hc] at hf
          cases hf
    | none =>
        by_cases hc : receivedCount (writeChunk (freshEntry c now) c now) =
          (writeChunk (freshEntry c now) c now).total_chunks
        · rw [onChunk_fresh_complete cfg st c now hst hfind hc] at hf ⊢
          have : f.frame_id = c.frame_id := by
            rw [← Option.some_inj.mp hf]
            rfl
          rw [this]
          exact le_max_right _ _
        · rw [onChunk_fresh_incomplete cfg st c now hst hfind hc] at hf
          cases hf

theorem onChunk_removed_le_wm (cfg : AsmConfig) (st : AsmState) (c : FrameChunk)
    (now : Nat) (K : Nat) (hK : K ∈ tableIds st.table)
    (hK' : K ∉ tableIds (onChunk cfg st c now).1.table) :
    K ≤ (onChunk cfg st c now).1.watermark := by
  by_cases hst : c.frame_id ≤ st.watermark
  · rw [onChunk_stale cfg st c now hst] at hK' ⊢
    exact absurd hK hK'
  · cases hfind : findEntry st.table c.frame_id with
    | some e =>
        by_cases hc : receivedCount (writeChunk e c now) = (writeChunk e c now).total_chunks
        · rw [onChunk_found_complete cfg st c now e hst hfind hc] at hK' ⊢
          by_cases heq : K = c.frame_id
          · rw [heq]
            exact le_max_right _ _
          · exfalso
            apply hK'
            obtain ⟨x, hx, hxf⟩ := List.mem_map.mp hK
            apply List.mem_map.mpr
            refine ⟨x, ?_, hxf⟩
            apply List.mem_filter.mpr
            refine ⟨hx, ?_⟩
            simp only [Bool.not_eq_true', beq_eq_false_iff_ne, ne_eq]
            rw [hxf]
            exact heq
        · rw [onChunk_found_incomplete cfg st c now e hst hfind hc] at hK' ⊢
          have hefid : e.frame_id = c.frame_id := (findEntry_some hfind).2
          have hwfid : (writeChunk e c now).frame_id = c.frame_id := hefid
          rw [show ({ st with
              table := replaceEntry st.table c.frame_id (writeChunk e c now) } :
                AsmState).table =
              replaceEntry st.table c.frame_id (writeChunk e c now) from rfl,
            tableIds_replaceEntry _ _ _ hwfid] at hK'
          exact absurd hK hK'
    | none =>
        by_cases hc : receivedCount (writeChunk (freshEntry c now) c now) =
          (writeChunk (freshEntry c now) c now).total_chunks
        · rw [onChunk_fresh_complete cfg st c now hst hfind hc] at hK' ⊢
          exact le_trans (admitState_removed_le_wm cfg st K hK hK') (le_max_left _ _)
        · rw [onChunk_fresh_incomplete cfg st c now hst hfind hc] at hK' ⊢
          apply admitState_removed_le_wm cfg st K hK
          intro hmem
          apply hK'
          unfold tableIds at hmem ⊢
          rw [List.map_append]
          exact List.mem_append.mpr (Or.inl hmem)

theorem stepEv_out_le_wm (cfg : AsmConfig) (st : AsmState) (ev : AsmEvent) :
    ∀ f ∈ (stepEv cfg st ev).2, f.frame_id ≤ (stepEv cfg st ev).1.watermark := by
  cases ev with
  | chunk c now =>
      intro f hf
      have h2 : (onChunkAt cfg st c now).2 = some f := by
        have := hf
        simp only [stepEv] at this
        cases hx : (onChunkAt cfg st c now).2 with
        | none => rw [hx] at this; cases this
        | some g =>
            rw [hx] at this
            simp only [Option.toList_some, List.mem_singleton] at this
            subst this
            rfl
      exact onChunk_out_le_wm cfg _ c now f h2
  | sweep now =>
      intro f hf
      simp [stepEv] at hf

theorem stepEv_removed_le_wm (cfg : AsmConfig) (st : AsmState) (ev : AsmEvent)
    (K : Nat) (hK : K ∈ tableIds st.table)
    (hK' : K ∉ tableIds (stepEv cfg st ev).1.table) :
    K ≤ (stepEv cfg st ev).1.watermark := by
  cases ev with
  | chunk c now =>
      by_cases hsw : K ∈ tableIds (sweepState cfg st now).table
      · exact onChunk_removed_le_wm cfg _ c now K hsw hK'
      · exact le_trans (sweepState_removed_le_wm cfg st now K hK hsw)
          (onChunk_wm_mono cfg _ c now)
  | sweep now =>
      exact sweepState_removed_le_wm cfg st now K hK hK'

/-- C2: the watermark is monotonically non-decreasing over any run; a
frame completed or dropped by a step has its id at or below the new
watermark; any chunk whose `frame_id` is at or below the watermark is
rejected and counted as stale with no `IncompleteFrame` entry created
for it (the post-state's table is exactly the swept table); and at most
one `CompletedFrame` is ever emitted per `frame_id` (the emitted ids of
any run from an empty-table state are pairwise distinct). -/
theorem C2_watermark (cfg : AsmConfig) (st : AsmState) (ev : AsmEvent)
    (c : FrameChunk) (now w : Nat) (s0 : AsmStats) (evs evs2 : List AsmEvent)
    (K : Nat) (hst : c.frame_id ≤ st.watermark) :
    st.watermark ≤ (runEvents cfg st evs).1.watermark ∧
      onChunkAt cfg st c now = (bumpStale (sweepState cfg st now), none) ∧
      (∀ f ∈ (stepEv cfg st ev).2, f.frame_id ≤ (stepEv cfg st ev).1.watermark) ∧
      (K ∈ tableIds st.table → K ∉ tableIds (stepEv cfg st ev).1.table →
        K ≤ (stepEv cfg st ev).1.watermark) ∧
      ((runEvents cfg (mkInit w s0) evs2).2.map CompletedFrame.frame_id).Nodup := by
  refine ⟨runEvents_wm_mono cfg evs st, onChunkAt_stale cfg st c now hst,
    stepEv_out_le_wm cfg st ev, stepEv_removed_le_wm cfg st ev K, ?_⟩
  have hinv : AsmInv [] (mkInit w s0) := by
    refine ⟨List.nodup_nil, ?_, ?_, ?_⟩
    · intro k hk
      cases hk
    · exact List.nodup_nil
    · intro e he
      cases he
  have h := runEvents_inv cfg evs2 (mkInit w s0) [] hinv
  simpa using h.1

/-- Concrete instantiation of C2: watermark 5 rejects a chunk for frame
3; a duplicate full frame 1 is emitted only once. -/
theorem C2_watermark_witness :
    (⟨5, [], ⟨0, 0, 0⟩⟩ : AsmState).watermark ≤
      (runEvents ⟨10, 2⟩ ⟨5, [], ⟨0, 0, 0⟩⟩
        [AsmEvent.chunk ⟨7, 0, 1, [1]⟩ 0]).1.watermark ∧
      onChunkAt ⟨10, 2⟩ ⟨5, [], ⟨0, 0, 0⟩⟩ ⟨3, 0, 1, [2]⟩ 0 =
        (bumpStale (sweepState ⟨10, 2⟩ ⟨5, [], ⟨0, 0, 0⟩⟩ 0), none) ∧
      (∀ f ∈ (stepEv ⟨10, 2⟩ ⟨5, [], ⟨0, 0, 0⟩⟩ (AsmEvent.chunk ⟨7, 0, 1, [1]⟩ 0)).2,
        f.frame_id ≤
          (stepEv ⟨10, 2⟩ ⟨5, [], ⟨0, 0, 0⟩⟩
            (AsmEvent.chunk ⟨7, 0, 1, [1]⟩ 0)).1.watermark) ∧
      ((9 : Nat) ∈ tableIds (⟨5, [], ⟨0, 0, 0⟩⟩ : AsmState).table →
        (9 : Nat) ∉ tableIds (stepEv ⟨10, 2⟩ ⟨5, [], ⟨0, 0, 0⟩⟩
          (AsmEvent.chunk ⟨7, 0, 1, [1]⟩ 0)).1.table →
        (9 : Nat) ≤ (stepEv ⟨10, 2⟩ ⟨5, [], ⟨0, 0, 0⟩⟩
          (AsmEvent.chunk ⟨7, 0, 1, [1]⟩ 0)).1.watermark) ∧
      ((runEvents ⟨10, 2⟩ (mkInit 0 ⟨0, 0, 0⟩)
        [AsmEvent.chunk ⟨1, 0, 1, [5]⟩ 0, AsmEvent.chunk ⟨1, 0, 1, [6]⟩ 0]).2.map
          CompletedFrame.frame_id).Nodup :=
  C2_watermark ⟨10, 2⟩ ⟨5, [], ⟨0, 0, 0⟩⟩ (AsmEvent.chunk ⟨7, 0, 1, [1]⟩ 0)
    ⟨3, 0, 1, [2]⟩ 0 0 ⟨0, 0, 0⟩ [AsmEvent.chunk ⟨7, 0, 1, [1]⟩ 0]
    [AsmEvent.chunk ⟨1, 0, 1, [5]⟩ 0, AsmEvent.chunk ⟨1, 0, 1, [6]⟩ 0] 9
    (by decide)

/-! ### Capacity bound lemmas (claim C3) -/

theorem countP_isSome_replicate_none (n : Nat) :
    (List.replicate n (none : Option (List Nat))).countP Option.isSome = 0 := by
  induction n with
  | zero => rfl
  | succ n ih =>
      rw [List.replicate_succ, List.countP_cons_of_neg]
      · exact ih
      · simp

theorem countP_isSome_set_le (l : List (Option (List Nat))) (i : Nat) (p : List Nat) :
    (l.set i (some p)).countP Option.isSome ≤ l.countP Option.isSome + 1 := by
  induction l generalizing i with
  | nil => simp
  | cons x xs ih =>
      cases i with
      | zero =>
          rw [List.set_cons_zero, List.countP_cons, List.countP_cons]
          have : (Option.isSome (some p) : Bool) = true := rfl
          simp only [this, if_pos]
          omega
      | succ i =>
          rw [List.set_cons_succ, List.countP_cons, List.countP_cons]
          have := ih i
          omega

/-- A chunk written into a fresh entry fills at most one slot. -/
theorem receivedCount_fresh_le_one (c : FrameChunk) (now : Nat) :
    receivedCount (writeChunk (freshEntry c now) c now) ≤ 1 := by
  unfold receivedCount writeChunk freshEntry
  simp only []
  calc ((List.replicate c.total_chunks none).set c.chunk_index
        (some c.payload)).countP Option.isSome
      ≤ (List.replicate c.total_chunks (none : Option (List Nat))).countP
          Option.isSome + 1 := countP_isSome_set_le _ _ _
    _ = 1 := by rw [countP_isSome_replicate_none]

theorem evictOldest_length_lt (st : AsmState) (h : st.table ≠ []) :
    (evictOldest st).table.length < st.table.length := by
  cases htab : st.table with
  | nil => exact absurd htab h
  | cons x xs =>
      have hold : oldestEntry st.table = some (xs.foldl olderEntry x) := by
        rw [htab]
        rfl
      have hmem : xs.foldl olderEntry x ∈ st.table := by
        rw [htab]
        exact foldl_olderEntry_mem xs x
      unfold evictOldest
      rw [hold, ← htab]
      show (removeEntry st.table (xs.foldl olderEntry x).frame_id).length <
        st.table.length
      apply List.length_filter_lt_length_iff_exists.mpr
      refine ⟨_, hmem, ?_⟩
      simp

theorem onChunk_table_length (cfg : AsmConfig) (st : AsmState) (c : FrameChunk)
    (now : Nat) (hN : 1 ≤ cfg.max_incomplete_frames)
    (hlen : st.table.length ≤ cfg.max_incomplete_frames) :
    (onChunk cfg st c now).1.table.length ≤ cfg.max_incomplete_frames := by
  by_cases hst : c.frame_id ≤ st.watermark
  · rw [onChunk_stale cfg st c now hst]
    exact hlen
  · cases hfind : findEntry st.table c.frame_id with
    | some e =>
        by_cases hc : receivedCount (writeChunk e c now) = (writeChunk e c now).total_chunks
        · rw [onChunk_found_complete cfg st c now e hst hfind hc]
          calc (removeEntry st.table c.frame_id).length
              ≤ st.table.length := List.length_filter_le _ _
            _ ≤ _ := hlen
        · rw [onChunk_found_incomplete cfg st c now e hst hfind hc]
          calc (replaceEntry st.table c.frame_id (writeChunk e c now)).length
              = st.table.length := List.length_map _ _
            _ ≤ _ := hlen
    | none =>
        have hadm : (admitState cfg st).table.length + 1 ≤ cfg.max_incomplete_frames := by
          unfold admitState
          split
          · rename_i hforce
            have hne : st.table ≠ [] := by
              intro hnil
              rw [hnil] at hforce
              simp at hforce
              omega
            have := evictOldest_length_lt st hne
            omega
          · rename_i hroom
            omega
        by_cases hc : receivedCount (writeChunk (freshEntry c now) c now) =
          (writeChunk (freshEntry c now) c now).total_chunks
        · rw [onChunk_fresh_complete cfg st c now hst hfind hc]
          show (admitState cfg st).table.length ≤ cfg.max_incomplete_frames
          omega
        · rw [onChunk_fresh_incomplete cfg st c now hst hfind hc]
          simp only [List.length_append, List.length_cons, List.length_nil]
          omega

theorem stepEv_table_length (cfg : AsmConfig) (st : AsmState) (ev : AsmEvent)
    (hN : 1 ≤ cfg.max_incomplete_frames)
    (hlen : st.table.length ≤ cfg.max_incomplete_frames) :
    (stepEv cfg st ev).1.table.length ≤ cfg.max_incomplete_frames := by
  have hsw : ∀ now, (sweepState cfg st now).table.length ≤ cfg.max_incomplete_frames :=
    fun now => le_trans (List.length_filter_le _ _) hlen
  cases ev with
  | chunk c now => exact onChunk_table_length cfg _ c now hN (hsw now)
  | sweep now => exact hsw now

theorem removeEntry_length_of_nodup {t : List IncompleteFrame} {e : IncompleteFrame}
    (hnd : (tableIds t).Nodup) (he : e ∈ t) :
    (removeEntry t e.frame_id).length + 1 = t.length := by
  induction t with
  | nil => cases he
  | cons x xs ih =>
      have hnd2 : (x.frame_id :: tableIds xs).Nodup := hnd
      have hxnot : x.frame_id ∉ tableIds xs := (List.nodup_cons.mp hnd2).1
      have hnd' : (tableIds xs).Nodup := (List.nodup_cons.mp hnd2).2
      rcases List.mem_cons.mp he with h | h
      · subst h
        unfold removeEntry
        rw [List.filter_cons]
        have hcond : (! (e.frame_id == e.frame_id)) = false := by simp
        rw [hcond]
        simp only [Bool.false_eq_true, if_false]
        have hall : ∀ y ∈ xs, (! (y.frame_id == e.frame_id)) = true := by
          intro y hy
          simp only [Bool.not_eq_true', beq_eq_false_iff_ne, ne_eq]
          intro hcontra
          exact hxnot (hcontra ▸ List.mem_map.mpr ⟨y, hy, rfl⟩)
        rw [List.filter_eq_self.mpr hall]
        rfl
      · unfold removeEntry
        rw [List.filter_cons]
        have hxne : (! (x.frame_id == e.frame_id)) = true := by
          simp only [Bool.not_eq_true', beq_eq_false_iff_ne, ne_eq]
          intro hcontra
          exact hxnot (hcontra ▸ List.mem_map.mpr ⟨e, h, rfl⟩)
        rw [hxne]
        simp only [if_pos, List.length_cons]
        have := ih hnd' h
        unfold removeEntry at this
        omega

/-- C3: with `max_incomplete_frames = N ≥ 1`, the tracked set never
exceeds N after any step, and admitting an (N+1)-th distinct incomplete
frame evicts exactly one existing entry — the oldest by
`first_seen_time` — before the new entry is admitted, counted as a
timeout-class drop. -/
theorem C3_capacity_bound (cfg : AsmConfig) (st st2 : AsmState) (ev : AsmEvent)
    (c : FrameChunk) (now : Nat) (old : IncompleteFrame)
    (hN : 1 ≤ cfg.max_incomplete_frames)
    (hlen2 : st2.table.length ≤ cfg.max_incomplete_frames)
    (hfull : st.table.length = cfg.max_incomplete_frames)
    (hold : oldestEntry st.table = some old)
    (hf : findEntry st.table c.frame_id = none)
    (hwm : st.watermark < c.frame_id)
    (htot : 2 ≤ c.total_chunks)
    (hnodup : (tableIds st.table).Nodup) :
    (stepEv cfg st2 ev).1.table.length ≤ cfg.max_incomplete_frames ∧
      onChunk cfg st c now =
        ({ watermark := max st.watermark old.frame_id
           table := removeEntry st.table old.frame_id ++
             [writeChunk (freshEntry c now) c now]
           stats := { st.stats with
             frames_dropped_timeout := st.stats.frames_dropped_timeout + 1 } },
         none) ∧
      (removeEntry st.table old.frame_id).length + 1 = cfg.max_incomplete_frames ∧
      (onChunk cfg st c now).1.table.length = cfg.max_incomplete_frames ∧
      old ∈ st.table ∧
      (∀ e ∈ st.table, old.first_seen_time ≤ e.first_seen_time) := by
  have hst : ¬ c.frame_id ≤ st.watermark := Nat.not_le.mpr hwm
  have hc : ¬ receivedCount (writeChunk (freshEntry c now) c now) =
      (writeChunk (freshEntry c now) c now).total_chunks := by
    have h1 := receivedCount_fresh_le_one c now
    have h2 : (writeChunk (freshEntry c now) c now).total_chunks = c.total_chunks := rfl
    omega
  have hadm : admitState cfg st = evictOldest st := by
    unfold admitState
    rw [if_pos (le_of_eq hfull.symm)]
  have hevict : evictOldest st =
      { watermark := max st.watermark old.frame_id
        table := removeEntry st.table old.frame_id
        stats := { st.stats with
          frames_dropped_timeout := st.stats.frames_dropped_timeout + 1 } } := by
    unfold evictOldest
    rw [hold]
  have heq := onChunk_fresh_incomplete cfg st c now hst hf hc
  rw [hadm, hevict] at heq
  have hmem := oldestEntry_mem hold
  have hone : (removeEntry st.table old.frame_id).length + 1 =
      cfg.max_incomplete_frames := by
    rw [removeEntry_length_of_nodup hnodup hmem]
    exact hfull
  refine ⟨stepEv_table_length cfg st2 ev hN hlen2, heq, hone, ?_, hmem,
    oldestEntry_min hold⟩
  rw [heq]
  simp only [List.length_append, List.length_cons, List.length_nil]
  omega

/-- Concrete instantiation of C3 at N = 2 with a full table. -/
theorem C3_capacity_bound_witness :
    (stepEv ⟨10, 2⟩ ⟨0, [⟨1, 2, [some [1], none], 3, 3⟩], ⟨0, 0, 0⟩⟩
      (AsmEvent.chunk ⟨4, 0, 2, [9]⟩ 3)).1.table.length ≤ 2 ∧
      onChunk ⟨10, 2⟩
          ⟨0, [⟨1, 2, [some [1], none], 3, 3⟩, ⟨2, 2, [some [2], none], 4, 4⟩],
            ⟨0, 0, 0⟩⟩ ⟨3, 0, 2, [7]⟩ 5 =
        ({ watermark := max 0 1
           table := removeEntry
               [⟨1, 2, [some [1], none], 3, 3⟩, ⟨2, 2, [some [2], none], 4, 4⟩] 1 ++
             [writeChunk (freshEntry ⟨3, 0, 2, [7]⟩ 5) ⟨3, 0, 2, [7]⟩ 5]
           stats := { (⟨0, 0, 0⟩ : AsmStats) with frames_dropped_timeout := 0 + 1 } },
         none) ∧
      (removeEntry [⟨1, 2, [some [1], none], 3, 3⟩, ⟨2, 2, [some [2], none], 4, 4⟩]
        1).length + 1 = 2 ∧
      (onChunk ⟨10, 2⟩
        ⟨0, [⟨1, 2, [some [1], none], 3, 3⟩, ⟨2, 2, [some [2], none], 4, 4⟩],
          ⟨0, 0, 0⟩⟩ ⟨3, 0, 2, [7]⟩ 5).1.table.length = 2 ∧
      (⟨1, 2, [some [1], none], 3, 3⟩ : IncompleteFrame) ∈
        [(⟨1, 2, [some [1], none], 3, 3⟩ : IncompleteFrame),
          ⟨2, 2, [some [2], none], 4, 4⟩] ∧
      (∀ e ∈ [(⟨1, 2, [some [1], none], 3, 3⟩ : IncompleteFrame),
          ⟨2, 2, [some [2], none], 4, 4⟩],
        (3 : Nat) ≤ e.first_seen_time) :=
  C3_capacity_bound ⟨10, 2⟩
    ⟨0, [⟨1, 2, [some [1], none], 3, 3⟩, ⟨2, 2, [some [2], none], 4, 4⟩], ⟨0, 0, 0⟩⟩
    ⟨0, [⟨1, 2, [some [1], none], 3, 3⟩], ⟨0, 0, 0⟩⟩
    (AsmEvent.chunk ⟨4, 0, 2, [9]⟩ 3) ⟨3, 0, 2, [7]⟩ 5
    ⟨1, 2, [some [1], none], 3, 3⟩
    (by decide) (by decide) (by decide) (by decide) (by decide) (by decide)
    (by decide) (by decide)

/-! ### Timeout bound lemmas (claim C4) -/

theorem sweep_removes_expired (cfg : AsmConfig) (st : AsmState) (now : Nat)
    (e : IncompleteFrame) (he : e ∈ st.table)
    (hex : expiredB cfg now e = true) (hnd : (tableIds st.table).Nodup) :
    e.frame_id ∉ tableIds (sweepState cfg st now).table := by
  intro hmem
  obtain ⟨x, hx, hxf⟩ := List.mem_map.mp hmem
  have hxt : x ∈ st.table := (List.mem_filter.mp hx).1
  have hxe : x = e := List.inj_on_of_nodup_map hnd hxt he hxf
  have hkeep := (List.mem_filter.mp hx).2
  rw [hxe, hex] at hkeep
  cases hkeep

theorem sweep_expired_le_wm (cfg : AsmConfig) (st : AsmState) (now : Nat)
    (e : IncompleteFrame) (he : e ∈ st.table)
    (hex : expiredB cfg now e = true) :
    e.frame_id ≤ (sweepState cfg st now).watermark :=
  mem_le_foldl_maxId _ st.watermark e (List.mem_filter.mpr ⟨he, hex⟩)

theorem sweep_counts_expired (cfg : AsmConfig) (st : AsmState) (now : Nat)
    (e : IncompleteFrame) (he : e ∈ st.table)
    (hex : expiredB cfg now e = true) :
    st.stats.frames_dropped_timeout + 1 ≤
      (sweepState cfg st now).stats.frames_dropped_timeout := by
  have hmem : e ∈ st.table.filter (expiredB cfg now) := List.mem_filter.mpr ⟨he, hex⟩
  have hlen : 1 ≤ (st.table.filter (expiredB cfg now)).length :=
    List.length_pos.mpr (List.ne_nil_of_mem hmem)
  show st.stats.frames_dropped_timeout + 1 ≤
    st.stats.frames_dropped_timeout + (st.table.filter (expiredB cfg now)).length
  omega

/-- C4: with `frame_timeout = T`, a frame whose last required chunk
arrives more than T after its first chunk's arrival is never completed:
the sweep running alongside the chunk's processing evicts its entry and
counts a timeout drop, the chunk itself is rejected (nothing emitted),
the watermark records the frame id, every entry surviving a sweep has
age at most T, and chunks for the frame arriving after the eviction —
after any further events — are rejected as stale. -/
theorem C4_timeout_bound (cfg : AsmConfig) (st : AsmState) (c c2 : FrameChunk)
    (now now2 : Nat) (e : IncompleteFrame) (evs : List AsmEvent)
    (he : e ∈ st.table) (hfid : e.frame_id = c.frame_id)
    (hage : cfg.frame_timeout < now - e.first_seen_time)
    (hnodup : (tableIds st.table).Nodup)
    (hfid2 : c2.frame_id = c.frame_id) :
    onChunkAt cfg st c now = (bumpStale (sweepState cfg st now), none) ∧
      c.frame_id ∉ tableIds (onChunkAt cfg st c now).1.table ∧
      c.frame_id ≤ (onChunkAt cfg st c now).1.watermark ∧
      st.stats.frames_dropped_timeout + 1 ≤
        (onChunkAt cfg st c now).1.stats.frames_dropped_timeout ∧
      (∀ x ∈ (onChunkAt cfg st c now).1.table,
        now - x.first_seen_time ≤ cfg.frame_timeout) ∧
      onChunkAt cfg (runEvents cfg (onChunkAt cfg st c now).1 evs).1 c2 now2 =
        (bumpStale (sweepState cfg
          (runEvents cfg (onChunkAt cfg st c now).1 evs).1 now2), none) := by
  have hex : expiredB cfg now e = true := by
    simp only [expiredB, decide_eq_true_eq]
    exact hage
  have hwm : c.frame_id ≤ (sweepState cfg st now).watermark :=
    hfid ▸ sweep_expired_le_wm cfg st now e he hex
  have heq : onChunkAt cfg st c now = (bumpStale (sweepState cfg st now), none) :=
    onChunk_stale cfg (sweepState cfg st now) c now hwm
  have hgone : c.frame_id ∉ tableIds (sweepState cfg st now).table :=
    hfid ▸ sweep_removes_expired cfg st now e he hex hnodup
  have hwm1 : c.frame_id ≤ (onChunkAt cfg st c now).1.watermark := by
    rw [heq]
    exact hwm
  refine ⟨heq, ?_, hwm1, ?_, ?_, ?_⟩
  · rw [heq]
    exact hgone
  · rw [heq]
    exact sweep_counts_expired cfg st now e he hex
  · rw [heq]
    exact sweepState_young cfg st now
  · apply onChunkAt_stale
    rw [hfid2]
    exact le_trans hwm1 (runEvents_wm_mono cfg evs _)

/-- Concrete instantiation of C4: timeout 10, first chunk at time 0,
second (last) chunk at time 20. -/
theorem C4_timeout_bound_witness :
    onChunkAt ⟨10, 4⟩ ⟨0, [⟨1, 2, [some [7], none], 0, 0⟩], ⟨0, 0, 0⟩⟩
        ⟨1, 1, 2, [8]⟩ 20 =
      (bumpStale (sweepState ⟨10, 4⟩
        ⟨0, [⟨1, 2, [some [7], none], 0, 0⟩], ⟨0, 0, 0⟩⟩ 20), none) ∧
      (1 : Nat) ∉ tableIds (onChunkAt ⟨10, 4⟩
        ⟨0, [⟨1, 2, [some [7], none], 0, 0⟩], ⟨0, 0, 0⟩⟩ ⟨1, 1, 2, [8]⟩ 20).1.table ∧
      (1 : Nat) ≤ (onChunkAt ⟨10, 4⟩
        ⟨0, [⟨1, 2, [some [7], none], 0, 0⟩], ⟨0, 0, 0⟩⟩
          ⟨1, 1, 2, [8]⟩ 20).1.watermark ∧
      (0 : Nat) + 1 ≤ (onChunkAt ⟨10, 4⟩
        ⟨0, [⟨1, 2, [some [7], none], 0, 0⟩], ⟨0, 0, 0⟩⟩
          ⟨1, 1, 2, [8]⟩ 20).1.stats.frames_dropped_timeout ∧
      (∀ x ∈ (onChunkAt ⟨10, 4⟩
          ⟨0, [⟨1, 2, [some [7], none], 0, 0⟩], ⟨0, 0, 0⟩⟩
            ⟨1, 1, 2, [8]⟩ 20).1.table,
        20 - x.first_seen_time ≤ 10) ∧
      onChunkAt ⟨10, 4⟩ (runEvents ⟨10, 4⟩ (onChunkAt ⟨10, 4⟩
          ⟨0, [⟨1, 2, [some [7], none], 0, 0⟩], ⟨0, 0, 0⟩⟩
            ⟨1, 1, 2, [8]⟩ 20).1 []).1 ⟨1, 0, 2, [9]⟩ 21 =
        (bumpStale (sweepState ⟨10, 4⟩ (runEvents ⟨10, 4⟩ (onChunkAt ⟨10, 4⟩
          ⟨0, [⟨1, 2, [some [7], none], 0, 0⟩], ⟨0, 0, 0⟩⟩
            ⟨1, 1, 2, [8]⟩ 20).1 []).1 21), none) :=
  C4_timeout_bound ⟨10, 4⟩ ⟨0, [⟨1, 2, [some [7], none], 0, 0⟩], ⟨0, 0, 0⟩⟩
    ⟨1, 1, 2, [8]⟩ ⟨1, 0, 2, [9]⟩ 20 21 ⟨1, 2, [some [7], none], 0, 0⟩ []
    (by decide) (by decide) (by decide) (by decide) (by decide)

/-! ### Reassembly lemmas (claim C1) -/

theorem fillFold_nil (init : List (Option (List Nat))) : fillFold init [] = init := rfl

theorem fillFold_cons (init : List (Option (List Nat))) (ip : Nat × List Nat)
    (ws : List (Nat × List Nat)) :
    fillFold init (ip :: ws) = fillFold (init.set ip.1 (some ip.2)) ws := rfl

theorem fillFold_length (ws : List (Nat × List Nat))
    (init : List (Option (List Nat))) :
    (fillFold init ws).length = init.length := by
  induction ws generalizing init with
  | nil => rfl
  | cons ip ws ih => rw [fillFold_cons, ih, List.length_set]

theorem fillFold_getElem?_not_mem (ws : List (Nat × List Nat))
    (init : List (Option (List Nat))) (j : Nat) (h : j ∉ ws.map Prod.fst) :
    (fillFold init ws)[j]? = init[j]? := by
  induction ws generalizing init with
  | nil => rfl
  | cons ip ws ih =>
      have hne : ip.1 ≠ j := by
        intro he
        apply h
        rw [← he]
        exact List.mem_map.mpr ⟨ip, List.mem_cons_self ip ws, rfl⟩
      have htail : j ∉ ws.map Prod.fst := by
        intro hmem
        exact h (List.mem_cons_of_mem _ hmem)
      rw [fillFold_cons, ih _ htail, List.getElem?_set_ne hne]

theorem fillFold_getElem?_mem (ws : List (Nat × List Nat))
    (init : List (Option (List Nat))) (j : Nat) (p : List Nat)
    (hnd : (ws.map Prod.fst).Nodup) (hmem : (j, p) ∈ ws) (hj : j < init.length) :
    (fillFold init ws)[j]? = some (some p) := by
  induction ws generalizing init with
  | nil => cases hmem
  | cons ip ws ih =>
      rcases List.mem_cons.mp hmem with h | h
      · have hip : ip = (j, p) := h.symm
        subst hip
        have hnotin : j ∉ ws.map Prod.fst := (List.nodup_cons.mp hnd).1
        rw [fillFold_cons, fillFold_getElem?_not_mem _ _ _ hnotin]
        exact List.getElem?_set_self hj
      · have hnd' : (ws.map Prod.fst).Nodup := (List.nodup_cons.mp hnd).2
        rw [fillFold_cons]
        exact ih _ hnd' h (by rw [List.length_set]; exact hj)

theorem countP_isSome_set_none (l : List (Option (List Nat))) (i : Nat)
    (p : List Nat) (h : l[i]? = some none) :
    (l.set i (some p)).countP Option.isSome = l.countP Option.isSome + 1 := by
  induction l generalizing i with
  | nil => simp at h
  | cons x xs ih =>
      cases i with
      | zero =>
          have hx : x = none := by simpa using h
          subst hx
          rw [List.set_cons_zero, List.countP_cons, List.countP_cons]
          simp
      | succ i =>
          have h' : xs[i]? = some none := by simpa using h
          rw [List.set_cons_succ, List.countP_cons, List.countP_cons, ih i h']
          omega

theorem fillFold_count (ws : List (Nat × List Nat))
    (init : List (Option (List Nat)))
    (hemp : ∀ ip ∈ ws, init[ip.1]? = some none)
    (hnd : (ws.map Prod.fst).Nodup) :
    (fillFold init ws).countP Option.isSome =
      init.countP Option.isSome + ws.length := by
  induction ws generalizing init with
  | nil => rfl
  | cons ip ws ih =>
      have h0 : init[ip.1]? = some none := hemp ip (List.mem_cons_self ip ws)
      have hnotin : ip.1 ∉ ws.map Prod.fst := (List.nodup_cons.mp hnd).1
      have hnd' : (ws.map Prod.fst).Nodup := (List.nodup_cons.mp hnd).2
      have hemp' : ∀ jp ∈ ws, (init.set ip.1 (some ip.2))[jp.1]? = some none := by
        intro jp hjp
        have hne : ip.1 ≠ jp.1 := by
          intro he
          apply hnotin
          rw [he]
          exact List.mem_map.mpr ⟨jp, hjp, rfl⟩
        rw [List.getElem?_set_ne hne]
        exact hemp jp (List.mem_cons_of_mem _ hjp)
      rw [fillFold_cons, ih _ hemp' hnd', countP_isSome_set_none _ _ _ h0,
        List.length_cons]
      omega

theorem fillFold_full (payloads : List (List Nat)) (ws : List (Nat × List Nat))
    (hperm : ws.Perm payloads.enum) :
    fillFold (List.replicate payloads.length none) ws =
      payloads.map (fun x => some x) := by
  have hlen : (fillFold (List.replicate payloads.length none) ws).length =
      payloads.length := by
    rw [fillFold_length, List.length_replicate]
  have hnd : (ws.map Prod.fst).Nodup := by
    have h1 : (ws.map Prod.fst).Perm (payloads.enum.map Prod.fst) := hperm.map _
    exact h1.nodup_iff.mpr (List.nodup_enum_map_fst payloads)
  apply List.ext_getElem?
  intro j
  by_cases hj : j < payloads.length
  · have hjmem : (j, payloads[j]) ∈ payloads.enum := by
      apply List.mem_enum_iff_getElem?.mpr
      exact List.getElem?_eq_getElem hj
    have hmem : (j, payloads[j]) ∈ ws := hperm.mem_iff.mpr hjmem
    rw [fillFold_getElem?_mem _ _ _ _ hnd hmem
      (by rw [List.length_replicate]; exact hj)]
    rw [List.getElem?_map, List.getElem?_eq_getElem hj]
    rfl
  · have h1 : (fillFold (List.replicate payloads.length none) ws)[j]? = none := by
      apply List.getElem?_eq_none
      rw [hlen]
      omega
    have h2 : (payloads.map (fun x => some x))[j]? = none := by
      apply List.getElem?_eq_none
      rw [List.length_map]
      omega
    rw [h1, h2]

theorem map_getD_map_some (l : List (List Nat)) :
    (l.map (fun x => some x)).map (fun s => s.getD []) = l := by
  rw [List.map_map]
  exact List.map_id l

theorem mkChunks_length (fid : Nat) (payloads : List (List Nat)) :
    (mkChunks fid payloads).length = payloads.length := by
  unfold mkChunks
  rw [List.length_map, List.enum_length]

theorem mem_mkChunks {fid : Nat} {payloads : List (List Nat)} {c : FrameChunk}
    (h : c ∈ mkChunks fid payloads) :
    c.frame_id = fid ∧ c.total_chunks = payloads.length ∧
      c.chunk_index < payloads.length := by
  unfold mkChunks at h
  obtain ⟨ip, hip, hc⟩ := List.mem_map.mp h
  subst hc
  refine ⟨rfl, rfl, ?_⟩
  have := List.mem_enum_iff_getElem?.mp hip
  have hlt := List.getElem?_eq_some.mp this
  exact hlt.1

theorem mkChunks_writes (fid : Nat) (payloads : List (List Nat)) :
    (mkChunks fid payloads).map chunkWrite = payloads.enum := by
  unfold mkChunks
  rw [List.map_map]
  have hfun : (chunkWrite ∘ fun ip : Nat × List Nat =>
      ({ frame_id := fid, chunk_index := ip.1, total_chunks := payloads.length,
         payload := ip.2 } : FrameChunk)) = id := by
    funext ip
    rfl
  rw [hfun, List.map_id]

theorem mkChunks_indices (fid : Nat) (payloads : List (List Nat)) :
    (mkChunks fid payloads).map FrameChunk.chunk_index =
      payloads.enum.map Prod.fst := by
  unfold mkChunks
  rw [List.map_map]
  rfl

/-- A sweep that finds only young entries leaves the state unchanged. -/
theorem sweep_id_of_young (cfg : AsmConfig) (st : AsmState) (now : Nat)
    (h : ∀ e ∈ st.table, now - e.first_seen_time ≤ cfg.frame_timeout) :
    sweepState cfg st now = st := by
  have hkeep : st.table.filter (fun e => ! expiredB cfg now e) = st.table := by
    apply List.filter_eq_self.mpr
    intro e he
    simp only [expiredB, Bool.not_eq_true', decide_eq_false_iff_not, not_lt]
    exact h e he
  have hdrop : st.table.filter (expiredB cfg now) = [] := by
    rw [List.filter_eq_nil_iff]
    intro e he
    simp only [expiredB, decide_eq_true_eq, not_lt]
    exact h e he
  unfold sweepState
  rw [hdrop, hkeep]
  rfl

theorem runEvents_cons (cfg : AsmConfig) (st : AsmState) (ev : AsmEvent)
    (evs : List AsmEvent) :
    runEvents cfg st (ev :: evs) =
      ((runEvents cfg (stepEv cfg st ev).1 evs).1,
       (stepEv cfg st ev).2 ++ (runEvents cfg (stepEv cfg st ev).1 evs).2) := rfl

theorem stepEv_chunk (cfg : AsmConfig) (st : AsmState) (c : FrameChunk) (now : Nat) :
    stepEv cfg st (AsmEvent.chunk c now) =
      ((onChunkAt cfg st c now).1, (onChunkAt cfg st c now).2.toList) := rfl

theorem findEntry_singleton (e : IncompleteFrame) (fid : Nat)
    (h : e.frame_id = fid) : findEntry [e] fid = some e := by
  simp [findEntry, List.find?, h]

theorem removeEntry_singleton (e : IncompleteFrame) (fid : Nat)
    (h : e.frame_id = fid) : removeEntry [e] fid = [] := by
  simp [removeEntry, h]

theorem replaceEntry_singleton (e e' : IncompleteFrame) (fid : Nat)
    (h : e.frame_id = fid) : replaceEntry [e] fid e' = [e'] := by
  simp [replaceEntry, h]

/-- Feeding the remaining chunks of a singleton-tracked frame, in any
order, completes the frame exactly at the last chunk with the buffer
filled by all the writes. -/
theorem run_fill (cfg : AsmConfig) (fid n t w : Nat) (stats : AsmStats)
    (todo : List FrameChunk) :
    ∀ sl : List (Option (List Nat)),
      todo ≠ [] → w < fid →
      (∀ c ∈ todo, c.frame_id = fid ∧ c.total_chunks = n ∧ c.chunk_index < n) →
      sl.length = n →
      sl.countP Option.isSome + todo.length = n →
      (∀ c ∈ todo, sl[c.chunk_index]? = some none) →
      (todo.map FrameChunk.chunk_index).Nodup →
      runEvents cfg ⟨w, [⟨fid, n, sl, t, t⟩], stats⟩
          (todo.map (fun c => AsmEvent.chunk c t)) =
        (⟨max w fid, [],
          { stats with frames_completed := stats.frames_completed + 1 }⟩,
         [⟨fid, ((fillFold sl (todo.map chunkWrite)).map
             (fun s => s.getD [])).flatten, t⟩]) := by
  induction todo with
  | nil =>
      intro sl hne
      exact absurd rfl hne
  | cons c todo' ih =>
      intro sl _ hw hchunks hsl hcount hempty hnd
      obtain ⟨hcfid, hctot, hcidx⟩ := hchunks c (List.mem_cons_self c todo')
      have hsweep : sweepState cfg ⟨w, [⟨fid, n, sl, t, t⟩], stats⟩ t =
          ⟨w, [⟨fid, n, sl, t, t⟩], stats⟩ := by
        apply sweep_id_of_young
        intro e he
        have he' : e = ⟨fid, n, sl, t, t⟩ := List.mem_singleton.mp he
        subst he'
        simp
      have hst : ¬ c.frame_id ≤
          (⟨w, [⟨fid, n, sl, t, t⟩], stats⟩ : AsmState).watermark := by
        show ¬ c.frame_id ≤ w
        rw [hcfid]
        exact Nat.not_le.mpr hw
      have hfind : findEntry [(⟨fid, n, sl, t, t⟩ : IncompleteFrame)] c.frame_id =
          some ⟨fid, n, sl, t, t⟩ :=
        findEntry_singleton _ _ hcfid.symm
      have hcnt : receivedCount (writeChunk ⟨fid, n, sl, t, t⟩ c t) =
          sl.countP Option.isSome + 1 := by
        show (sl.set c.chunk_index (some c.payload)).countP Option.isSome = _
        exact countP_isSome_set_none sl c.chunk_index c.payload
          (hempty c (List.mem_cons_self c todo'))
      have htot : (writeChunk ⟨fid, n, sl, t, t⟩ c t).total_chunks = n := rfl
      cases todo' with
      | nil =>
          have hcountc : sl.countP Option.isSome + 1 = n := by
            simpa using hcount
          have hc : receivedCount (writeChunk ⟨fid, n, sl, t, t⟩ c t) =
              (writeChunk ⟨fid, n, sl, t, t⟩ c t).total_chunks := by
            rw [hcnt, htot]
            exact hcountc
          have hstep : onChunkAt cfg ⟨w, [⟨fid, n, sl, t, t⟩], stats⟩ c t =
              (⟨max w fid, [],
                { stats with frames_completed := stats.frames_completed + 1 }⟩,
               some ⟨fid, ((sl.set c.chunk_index (some c.payload)).map
                  (fun s => s.getD [])).flatten, t⟩) := by
            show onChunk cfg (sweepState cfg ⟨w, [⟨fid, n, sl, t, t⟩], stats⟩ t)
              c t = _
            rw [hsweep,
              onChunk_found_complete cfg _ c t ⟨fid, n, sl, t, t⟩ hst hfind hc,
              removeEntry_singleton _ _ hcfid.symm, hcfid]
            rfl
          rw [List.map_cons, List.map_nil, runEvents_cons, stepEv_chunk, hstep]
          simp only [runEvents, Option.toList_some, List.append_nil]
          rfl
      | cons d rest =>
          have hlt : ¬ (sl.countP Option.isSome + 1 = n) := by
            rw [List.length_cons, List.length_cons] at hcount
            omega
          have hc : ¬ (receivedCount (writeChunk ⟨fid, n, sl, t, t⟩ c t) =
              (writeChunk ⟨fid, n, sl, t, t⟩ c t).total_chunks) := by
            rw [hcnt, htot]
            exact hlt
          have hstep : onChunkAt cfg ⟨w, [⟨fid, n, sl, t, t⟩], stats⟩ c t =
              (⟨w, [⟨fid, n, sl.set c.chunk_index (some c.payload), t, t⟩],
                stats⟩, none) := by
            show onChunk cfg (sweepState cfg ⟨w, [⟨fid, n, sl, t, t⟩], stats⟩ t)
              c t = _
            rw [hsweep,
              onChunk_found_incomplete cfg _ c t ⟨fid, n, sl, t, t⟩ hst hfind hc,
              replaceEntry_singleton _ _ _ hcfid.symm]
            rfl
          have hcne : c.chunk_index ∉ (d :: rest).map FrameChunk.chunk_index :=
            (List.nodup_cons.mp hnd).1
          have hih := ih (sl.set c.chunk_index (some c.payload))
            (List.cons_ne_nil d rest) hw
            (fun c' h => hchunks c' (List.mem_cons_of_mem _ h))
            (by rw [List.length_set]; exact hsl)
            (by
              rw [countP_isSome_set_none sl c.chunk_index c.payload
                (hempty c (List.mem_cons_self c _))]
              rw [List.length_cons] at hcount
              omega)
            (by
              intro c' hc'
              have hne : c.chunk_index ≠ c'.chunk_index := by
                intro he
                apply hcne
                rw [he]
                exact List.mem_map.mpr ⟨c', hc', rfl⟩
              rw [List.getElem?_set_ne hne]
              exact hempty c' (List.mem_cons_of_mem _ hc'))
            ((List.nodup_cons.mp hnd).2)
          rw [List.map_cons, runEvents_cons, stepEv_chunk, hstep, hih]
          simp only [Option.toList_none, List.nil_append]
          rfl

/-- A frame is promoted only from an entry whose buffer is fully
populated: every slot holds a chunk payload. -/
theorem onChunkAt_complete_only (cfg : AsmConfig) (st : AsmState) (c : FrameChunk)
    (now : Nat) (f : CompletedFrame)
    (hWF : ∀ e ∈ st.table, e.slots.length = e.total_chunks)
    (hf : (onChunkAt cfg st c now).2 = some f) :
    ∃ e' : IncompleteFrame,
      e'.slots.length = e'.total_chunks ∧
      receivedCount e' = e'.total_chunks ∧
      (∀ s ∈ e'.slots, s.isSome = true) ∧
      f = promote e' now := by
  have hWF' : ∀ e ∈ (sweepState cfg st now).table,
      e.slots.length = e.total_chunks :=
    fun e he => hWF e (sweepState_table_sub cfg st now e he)
  unfold onChunkAt at hf
  by_cases hst : c.frame_id ≤ (sweepState cfg st now).watermark
  · rw [onChunk_stale _ _ _ _ hst] at hf
    cases hf
  · cases hfind : findEntry (sweepState cfg st now).table c.frame_id with
    | some e =>
        by_cases hc : receivedCount (writeChunk e c now) =
          (writeChunk e c now).total_chunks
        · rw [onChunk_found_complete _ _ _ _ _ hst hfind hc] at hf
          have hlen : (writeChunk e c now).slots.length =
              (writeChunk e c now).total_chunks := by
            have := hWF' e (findEntry_some hfind).1
            show (e.slots.set c.chunk_index (some c.payload)).length = e.total_chunks
            rw [List.length_set]
            exact this
          refine ⟨writeChunk e c now, hlen, hc, ?_, (Option.some_inj.mp hf).symm⟩
          apply List.countP_eq_length.mp
          exact hc.trans hlen.symm
        · rw [onChunk_found_incomplete _ _ _ _ _ hst hfind hc] at hf
          cases hf
    | none =>
        by_cases hc : receivedCount (writeChunk (freshEntry c now) c now) =
          (writeChunk (freshEntry c now) c now).total_chunks
        · rw [onChunk_fresh_complete _ _ _ _ hst hfind hc] at hf
          have hlen : (writeChunk (freshEntry c now) c now).slots.length =
              (writeChunk (freshEntry c now) c now).total_chunks := by
            show ((List.replicate c.total_chunks none).set c.chunk_index
              (some c.payload)).length = c.total_chunks
            rw [List.length_set, List.length_replicate]
          refine ⟨writeChunk (freshEntry c now) c now, hlen, hc, ?_,
            (Option.some_inj.mp hf).symm⟩
          apply List.countP_eq_length.mp
          exact hc.trans hlen.symm
        · rw [onChunk_fresh_incomplete _ _ _ _ hst hfind hc] at hf
          cases hf

/-- C1: for every arrival permutation of a frame's chunks, the run from
an empty-table state emits exactly one `CompletedFrame`, whose bytes are
the ordered concatenation of the payloads of chunks
`0..total_chunks-1`; and, at any state whose entries are well-formed, a
frame is forwarded only as the promotion of an entry with every one of
its `total_chunks` buffer slots filled. -/
theorem C1_reassembly (cfg : AsmConfig) (w t fid : Nat) (s0 : AsmStats)
    (payloads : List (List Nat)) (perm : List FrameChunk)
    (st : AsmState) (c : FrameChunk) (now : Nat) (f : CompletedFrame)
    (hperm : perm.Perm (mkChunks fid payloads))
    (hw : w < fid) (hN : 1 ≤ cfg.max_incomplete_frames) (hnp : payloads ≠ [])
    (hWF : ∀ e ∈ st.table, e.slots.length = e.total_chunks) :
    (runEvents cfg (mkInit w s0) (perm.map (fun ch => AsmEvent.chunk ch t))).2 =
      [⟨fid, payloads.flatten, t⟩] ∧
      ((onChunkAt cfg st c now).2 = some f →
        ∃ e' : IncompleteFrame,
          e'.slots.length = e'.total_chunks ∧
          receivedCount e' = e'.total_chunks ∧
          (∀ s ∈ e'.slots, s.isSome = true) ∧
          f = promote e' now) := by
  refine ⟨?_, fun hf => onChunkAt_complete_only cfg st c now f hWF hf⟩
  have hlenp : perm.length = payloads.length := by
    rw [hperm.length_eq, mkChunks_length]
  have hwrites : (perm.map chunkWrite).Perm payloads.enum := by
    have h := hperm.map chunkWrite
    rwa [mkChunks_writes] at h
  have hWnd : (perm.map FrameChunk.chunk_index).Nodup := by
    have h1 : (perm.map FrameChunk.chunk_index).Perm
        (payloads.enum.map Prod.fst) := by
      have h := hperm.map FrameChunk.chunk_index
      rwa [mkChunks_indices] at h
    exact h1.nodup_iff.mpr (List.nodup_enum_map_fst payloads)
  cases perm with
  | nil =>
      exfalso
      rw [List.length_nil] at hlenp
      exact hnp (List.length_eq_zero.mp hlenp.symm)
  | cons c0 rest =>
      obtain ⟨h0fid, h0tot, h0idx⟩ :=
        mem_mkChunks (hperm.subset (List.mem_cons_self c0 rest))
      have hsweep0 : sweepState cfg (mkInit w s0) t = mkInit w s0 :=
        sweep_id_of_young cfg _ t (fun e he => absurd he (List.not_mem_nil e))
      have hst : ¬ c0.frame_id ≤ (mkInit w s0).watermark := by
        show ¬ c0.frame_id ≤ w
        rw [h0fid]
        exact Nat.not_le.mpr hw
      have hfind0 : findEntry (mkInit w s0).table c0.frame_id = none := rfl
      have hadm : admitState cfg (mkInit w s0) = mkInit w s0 := by
        unfold admitState
        rw [if_neg]
        intro h
        simp only [mkInit, List.length_nil] at h
        omega
      have hbase : (List.replicate c0.total_chunks
          (none : Option (List Nat)))[c0.chunk_index]? = some none := by
        apply List.getElem?_replicate_of_lt
        rw [h0tot]
        exact h0idx
      have hcnt0 : receivedCount (writeChunk (freshEntry c0 t) c0 t) = 1 := by
        show ((List.replicate c0.total_chunks none).set c0.chunk_index
          (some c0.payload)).countP Option.isSome = 1
        rw [countP_isSome_set_none _ _ _ hbase, countP_isSome_replicate_none]
      have hfill : ((fillFold (List.replicate payloads.length none)
          ((c0 :: rest).map chunkWrite)).map (fun s => s.getD [])).flatten =
          payloads.flatten := by
        rw [fillFold_full payloads _ hwrites, map_getD_map_some]
      cases rest with
      | nil =>
          have hn1 : payloads.length = 1 := by
            simpa using hlenp.symm
          have hc : receivedCount (writeChunk (freshEntry c0 t) c0 t) =
              (writeChunk (freshEntry c0 t) c0 t).total_chunks := by
            rw [hcnt0]
            show (1 : Nat) = c0.total_chunks
            rw [h0tot, hn1]
          have hstep : onChunkAt cfg (mkInit w s0) c0 t =
              (⟨max w c0.frame_id, [],
                { s0 with frames_completed := s0.frames_completed + 1 }⟩,
               some (promote (writeChunk (freshEntry c0 t) c0 t) t)) := by
            show onChunk cfg (sweepState cfg (mkInit w s0) t) c0 t = _
            rw [hsweep0, onChunk_fresh_complete cfg _ c0 t hst hfind0 hc, hadm]
            rfl
          have hpro : promote (writeChunk (freshEntry c0 t) c0 t) t =
              ⟨fid, payloads.flatten, t⟩ := by
            show (⟨c0.frame_id, (((List.replicate c0.total_chunks none).set
                c0.chunk_index (some c0.payload)).map
                (fun s => s.getD [])).flatten, t⟩ : CompletedFrame) = _
            rw [h0fid, h0tot]
            have hbytes : (((List.replicate payloads.length
                (none : Option (List Nat))).set c0.chunk_index
                (some c0.payload)).map (fun s => s.getD [])).flatten =
                payloads.flatten := hfill
            rw [hbytes]
          rw [List.map_cons, List.map_nil, runEvents_cons, stepEv_chunk, hstep,
            hpro]
          simp only [runEvents, Option.toList_some, List.append_nil]
      | cons d rr =>
          have hc : ¬ (receivedCount (writeChunk (freshEntry c0 t) c0 t) =
              (writeChunk (freshEntry c0 t) c0 t).total_chunks) := by
            intro hcontra
            rw [hcnt0] at hcontra
            have h1 : (1 : Nat) = c0.total_chunks := hcontra
            rw [h0tot] at h1
            rw [List.length_cons, List.length_cons] at hlenp
            omega
          have hstate : onChunkAt cfg (mkInit w s0) c0 t =
              (⟨w, [⟨fid, payloads.length,
                (List.replicate payloads.length none).set c0.chunk_index
                  (some c0.payload), t, t⟩], s0⟩, none) := by
            show onChunk cfg (sweepState cfg (mkInit w s0) t) c0 t = _
            rw [hsweep0, onChunk_fresh_incomplete cfg _ c0 t hst hfind0 hc,
              hadm]
            show ((⟨w, [⟨c0.frame_id, c0.total_chunks,
              (List.replicate c0.total_chunks none).set c0.chunk_index
                (some c0.payload), t, t⟩], s0⟩ : AsmState), none) = _
            rw [h0fid, h0tot]
          have hcne : c0.chunk_index ∉ (d :: rr).map FrameChunk.chunk_index :=
            (List.nodup_cons.mp hWnd).1
          have hrf := run_fill cfg fid payloads.length t w s0 (d :: rr)
            ((List.replicate payloads.length none).set c0.chunk_index
              (some c0.payload))
            (List.cons_ne_nil d rr) hw
            (fun c' h => mem_mkChunks (hperm.subset (List.mem_cons_of_mem _ h)))
            (by rw [List.length_set, List.length_replicate])
            (by
              rw [countP_isSome_set_none _ _ _
                (by
                  apply List.getElem?_replicate_of_lt
                  exact h0idx),
                countP_isSome_replicate_none]
              rw [List.length_cons, List.length_cons] at hlenp
              simp only [List.length_cons]
              omega)
            (by
              intro c' hc'
              obtain ⟨-, -, hidx'⟩ :=
                mem_mkChunks (hperm.subset (List.mem_cons_of_mem _ hc'))
              have hne : c0.chunk_index ≠ c'.chunk_index := by
                intro he
                apply hcne
                rw [he]
                exact List.mem_map.mpr ⟨c', hc', rfl⟩
              rw [List.getElem?_set_ne hne]
              exact List.getElem?_replicate_of_lt hidx')
            ((List.nodup_cons.mp hWnd).2)
          rw [List.map_cons, runEvents_cons, stepEv_chunk, hstate, hrf]
          simp only [Option.toList_none, List.nil_append]
          have hbytes : ((fillFold ((List.replicate payloads.length none).set
              c0.chunk_index (some c0.payload)) ((d :: rr).map chunkWrite)).map
              (fun s => s.getD [])).flatten = payloads.flatten := hfill
          rw [hbytes]

/-- Concrete instantiation of C1: frame 1 with payloads `[1]`, `[2,3]`
arriving in reverse order reassembles to `[1,2,3]`. -/
theorem C1_reassembly_witness :
    (runEvents ⟨100, 2⟩ (mkInit 0 ⟨0, 0, 0⟩)
        ([(⟨1, 1, 2, [2, 3]⟩ : FrameChunk), ⟨1, 0, 2, [1]⟩].map
          (fun ch => AsmEvent.chunk ch 5))).2 =
      [⟨1, [1, 2, 3], 5⟩] ∧
      ((onChunkAt ⟨100, 2⟩ (mkInit 0 ⟨0, 0, 0⟩) ⟨1, 0, 1, [9]⟩ 7).2 =
          some ⟨1, [9], 7⟩ →
        ∃ e' : IncompleteFrame,
          e'.slots.length = e'.total_chunks ∧
          receivedCount e' = e'.total_chunks ∧
          (∀ s ∈ e'.slots, s.isSome = true) ∧
          (⟨1, [9], 7⟩ : CompletedFrame) = promote e' 7) :=
  C1_reassembly ⟨100, 2⟩ 0 5 1 ⟨0, 0, 0⟩ [[1], [2, 3]]
    [⟨1, 1, 2, [2, 3]⟩, ⟨1, 0, 2, [1]⟩] (mkInit 0 ⟨0, 0, 0⟩) ⟨1, 0, 1, [9]⟩ 7
    ⟨1, [9], 7⟩ (by decide) (by decide) (by decide) (by decide)
    (fun e he => absurd he (List.not_mem_nil e))

/-! ### Theorems: Output Queue (claim C5) -/

theorem pushFrame_length_le (cap : Nat) (q : List CompletedFrame)
    (f : CompletedFrame) (hcap : 1 ≤ cap) (hq : q.length ≤ cap) :
    ((pushFrame cap q f).1).length ≤ cap := by
  unfold pushFrame
  by_cases h : cap ≤ q.length
  · simp only [h, if_pos]
    have hqe : q.length = cap := le_antisymm hq h
    have hne : q ≠ [] := by
      intro he
      rw [he] at hqe
      simp at hqe
      omega
    simp [List.length_append, List.length_drop, hqe]
    omega
  · simp only [h, if_neg, not_false_iff]
    simp [List.length_append]
    omega

theorem runQueue_length_le (cap : Nat) (ops : List QueueOp)
    (q : List CompletedFrame) (hcap : 1 ≤ cap) (hq : q.length ≤ cap) :
    (runQueue cap q ops).length ≤ cap := by
  induction ops generalizing q with
  | nil => simpa [runQueue] using hq
  | cons op ops ih =>
    cases op with
    | push f =>
      exact ih _ (pushFrame_length_le cap q f hcap hq)
    | pop =>
      apply ih
      simp only [popFrame, List.length_drop]
      omega

/-- C5: with `output_queue_capacity = Q` (Q ≥ 1), the Output Queue's
length never exceeds Q after any sequence of pushes and pops, and a push
onto a full queue drops exactly one frame — the oldest (front) frame —
rather than blocking or growing the queue. -/
theorem C5_queue_bound (cap : Nat) (q : List CompletedFrame)
    (f old : CompletedFrame) (rest : List CompletedFrame) (ops : List QueueOp)
    (hcap : 1 ≤ cap) (hq : q.length ≤ cap) (hfull : q = old :: rest)
    (hlen : q.length = cap) :
    (runQueue cap q ops).length ≤ cap ∧
      pushFrame cap q f = (rest ++ [f], 1) ∧
      (rest ++ [f]).length = cap := by
  refine ⟨runQueue_length_le cap ops q hcap hq, ?_, ?_⟩
  · unfold pushFrame
    rw [if_pos (le_of_eq hlen.symm)]
    subst hfull
    simp
  · subst hfull
    simp at hlen ⊢
    omega

/-- Concrete instantiation of C5 at capacity 2 with a full queue. -/
theorem C5_queue_bound_witness :
    (runQueue 2 [⟨1, [1], 0⟩, ⟨2, [2], 0⟩]
        [QueueOp.push ⟨3, [3], 0⟩, QueueOp.pop]).length ≤ 2 ∧
      pushFrame 2 [⟨1, [1], 0⟩, ⟨2, [2], 0⟩] ⟨3, [3], 0⟩ =
        ([⟨2, [2], 0⟩, ⟨3, [3], 0⟩], 1) ∧
      ([(⟨2, [2], 0⟩ : CompletedFrame), ⟨3, [3], 0⟩]).length = 2 :=
  C5_queue_bound 2 [⟨1, [1], 0⟩, ⟨2, [2], 0⟩] ⟨3, [3], 0⟩ ⟨1, [1], 0⟩
    [⟨2, [2], 0⟩] [QueueOp.push ⟨3, [3], 0⟩, QueueOp.pop]
    (by decide) (by decide) rfl rfl

/-! ### Theorems: Frame Receiver (claim C6) -/

/-- C6: a datagram shorter than the fixed header size is discarded: the
malformed-packet counter is incremented, nothing is forwarded to the
Assembler, other counters are unchanged, and processing of the next
datagram is unaffected (the receiver state after a malformed datagram
treats any next datagram exactly as before, apart from the counter).
Never raising is modelled by `onDatagram` being a total function. -/
theorem C6_short_datagram_dropped (st : RecvStats) (d d2 : List Nat)
    (h : d.length < HEADER_SIZE) :
    onDatagram st d =
      ({ st with malformed_packets := st.malformed_packets + 1 }, none) ∧
      (onDatagram st d).1.packets_received = st.packets_received ∧
      ((onDatagram (onDatagram st d).1 d2).2 = (onDatagram st d2).2) := by
  have hp : parseChunk d = none := by
    unfold parseChunk
    rw [if_pos h]
  constructor
  · unfold onDatagram
    rw [hp]
  · constructor
    · unfold onDatagram
      rw [hp]
    · unfold onDatagram
      rw [hp]
      cases parseChunk d2 <;> rfl

/-- Concrete instantiation of C6 on a 3-byte datagram. -/
theorem C6_short_datagram_dropped_witness :
    onDatagram ⟨5, 0⟩ [1, 2, 3] = (⟨5, 1⟩, none) ∧
      (onDatagram ⟨5, 0⟩ [1, 2, 3]).1.packets_received = 5 ∧
      ((onDatagram (onDatagram ⟨5, 0⟩ [1, 2, 3]).1 [9]).2 =
        (onDatagram ⟨5, 0⟩ [9]).2) :=
  C6_short_datagram_dropped ⟨5, 0⟩ [1, 2, 3] [9] (by decide)

/-! ### Theorems: Health Monitor (claim C7) -/

/-- C7: every health report's frame success rate equals
`frames_completed / (frames_completed + sum of all drop counters)` as
exact rational arithmetic on the counter snapshot: the rate times the
denominator recovers the numerator exactly whenever any frame was
counted, and the rate always lies in [0, 1]. -/
theorem C7_success_rate (s : PipelineStats)
    (h : 0 < s.frames_completed + droppedTotal s) :
    (mkReport s).success_rate =
      (s.frames_completed : ℚ) /
        ((s.frames_completed + (s.frames_dropped_timeout +
          s.frames_dropped_stale + s.frames_dropped_queue_full) : Nat) : ℚ) ∧
      (mkReport s).success_rate *
        ((s.frames_completed + droppedTotal s : Nat) : ℚ) =
        (s.frames_completed : ℚ) ∧
      0 ≤ (mkReport s).success_rate ∧ (mkReport s).success_rate ≤ 1 := by
  have hden0 : (0 : ℚ) < ((s.frames_completed + droppedTotal s : Nat) : ℚ) := by
    exact_mod_cast h
  have hden : ((s.frames_completed + droppedTotal s : Nat) : ℚ) ≠ 0 :=
    ne_of_gt hden0
  have hrate : (mkReport s).success_rate =
      (s.frames_completed : ℚ) / ((s.frames_completed + droppedTotal s : Nat) : ℚ) := by
    unfold mkReport frameSuccessRate
    push_cast
    ring_nf
  refine ⟨?_, ?_, ?_, ?_⟩
  · rw [hrate]
    unfold droppedTotal
    norm_num
  · rw [hrate, div_mul_cancel₀ _ hden]
  · rw [hrate]
    positivity
  · rw [hrate, div_le_one hden0]
    exact_mod_cast Nat.le_add_right _ _

/-! ### Theorems: WebSocket command relay (claim C8) -/

/-- C9: every generated token verifies under the same HMAC (same
`SECRET_KEY`) when checked less than 3600000 ms after its embedded
timestamp; a token whose age exceeds one hour is rejected, as is one
whose signature differs from the HMAC of its timestamp-and-nonce
payload. -/
theorem C9_token_roundtrip (hmac : String → String)
    (genTime checkTime : Int) (nonce : String) (t : Token)
    (hfresh : checkTime - genTime < 3600000) :
    verifyToken hmac checkTime (generateSecureToken hmac genTime nonce) = true ∧
      (checkTime - t.timestamp > 3600000 →
        verifyToken hmac checkTime t = false) ∧
      (t.signature ≠ hmac (payloadString t.timestamp t.nonce) →
        verifyToken hmac checkTime t = false) := by
  refine ⟨?_, ?_, ?_⟩
  · unfold verifyToken generateSecureToken
    rw [if_neg (by simp only []; omega)]
    simp
  · intro hold
    unfold verifyToken
    rw [if_pos hold]
  · intro hne
    unfold verifyToken
    split
    · rfl
    · simp only [beq_eq_false_iff_ne, ne_eq]
      exact hne

/-- Concrete instantiation of C9 with the identity as the opaque HMAC. -/
theorem C9_token_roundtrip_witness :
    verifyToken (fun s => s) 1000
        (generateSecureToken (fun s => s) 0 "ab") = true ∧
      ((1000 : Int) - (-4000000) > 3600000 →
        verifyToken (fun s => s) 1000 ⟨-4000000, "x", "bad"⟩ = false) ∧
      ((⟨-4000000, "x", "bad"⟩ : Token).signature ≠
          (fun s : String => s) (payloadString (-4000000) "x") →
        verifyToken (fun s => s) 1000 ⟨-4000000, "x", "bad"⟩ = false) :=
  C9_token_roundtrip (fun s => s) 0 1000 "ab" ⟨-4000000, "x", "bad"⟩
    (by norm_num)

/-! ### Theorems: frontend `sendCommand` (claim C10) -/

/-- C10: `sendCommand` resolves `false` and writes nothing whenever the
socket reference is null, the connection is not open or the session is
not authenticated; when all three hold it makes exactly one send
attempt, carrying the JSON message of type `command` with the given
command string, and resolves `true` unless the send throws. -/
theorem C10_sendCommand (wsPresent isConnected isAuthenticated sendThrows : Bool)
    (command : String) :
    ((wsPresent = false ∨ isConnected = false ∨ isAuthenticated = false) →
      sendCommand wsPresent isConnected isAuthenticated sendThrows command =
        (false, [])) ∧
    (wsPresent = true → isConnected = true → isAuthenticated = true →
      (sendCommand wsPresent isConnected isAuthenticated sendThrows command).2 =
        [mkCommandMessage command] ∧
      (sendCommand wsPresent isConnected isAuthenticated sendThrows command).1 =
        !sendThrows) := by
  constructor
  · intro h
    rcases h with h | h | h <;> subst h <;>
      cases sendThrows <;> simp [sendCommand]
  · intro h1 h2 h3
    subst h1
    subst h2
    subst h3
    cases sendThrows <;> simp [sendCommand]

/-- Concrete instantiation of C10 on the command `CAM.X_1.5`. -/
theorem C10_sendCommand_witness :
    (((true : Bool) = false ∨ (true : Bool) = false ∨ (true : Bool) = false) →
      sendCommand true true true false "CAM.X_1.5" = (false, [])) ∧
    ((true : Bool) = true → (true : Bool) = true → (true : Bool) = true →
      (sendCommand true true true false "CAM.X_1.5").2 =
        [mkCommandMessage "CAM.X_1.5"] ∧
      (sendCommand true true true false "CAM.X_1.5").1 = !false) :=
  C10_sendCommand true true true false "CAM.X_1.5"

/-- Concrete instantiation of C7 on the snapshot
`completed = 3, timeout = 1, stale = 0, queue_full = 0`. -/
theorem C7_success_rate_witness :
    (mkReport ⟨10, 3, 1, 0, 0, 0⟩).success_rate =
      ((3 : Nat) : ℚ) / (((3 + (1 + 0 + 0) : Nat)) : ℚ) ∧
      (mkReport ⟨10, 3, 1, 0, 0, 0⟩).success_rate *
        ((3 + droppedTotal ⟨10, 3, 1, 0, 0, 0⟩ : Nat) : ℚ) = ((3 : Nat) : ℚ) ∧
      0 ≤ (mkReport ⟨10, 3, 1, 0, 0, 0⟩).success_rate ∧
      (mkReport ⟨10, 3, 1, 0, 0, 0⟩).success_rate ≤ 1 :=
  C7_success_rate ⟨10, 3, 1, 0, 0, 0⟩ (by decide)

end Mannequin
